import Mathlib

/-!
Verification of the diff-leven diff engine: a shallow embedding of the
comparison core (`src/diff.ts`, the `DiffEngine`/`ValueComparator` classes)
together with theorems settling the specification claims.

JS values are modelled by the inductive `Value` below; JS numbers are
modelled as rationals.
-/

set_option maxHeartbeats 1000000

/-- The universal comparable type of the library: JS primitives (string,
number, boolean, null, undefined), arrays, and objects represented as
insertion-ordered association lists. -/
inductive Value where
  | vStr (s : String)
  | vNum (q : ℚ)
  | vBool (b : Bool)
  | vNull
  | vUndef
  | vArr (elems : List Value)
  | vObj (fields : List (String × Value))

/-- JS `typeof` (note `typeof null` is the string tagged object). -/
def typeOf : Value → String
  | .vStr _ => ("string")
  | .vNum _ => ("number")
  | .vBool _ => ("boolean")
  | .vNull => ("object")
  | .vUndef => ("undefined")
  | .vArr _ => ("object")
  | .vObj _ => ("object")

/-- JS `x == null`: true exactly for `null` and `undefined`. -/
def isNullish : Value → Bool
  | .vNull => true
  | .vUndef => true
  | _ => false

/-- JS strict equality `===`: value equality for primitives; two container
literals are distinct references, so two containers compare `false`
(two aliases of one reference are structurally identical values, and every
function below agrees on structurally identical values, so modelling the
aliased case as the fall-through branch is observationally faithful). -/
def strictEq : Value → Value → Bool
  | .vStr a, .vStr b => a == b
  | .vNum a, .vNum b => a == b
  | .vBool a, .vBool b => a == b
  | .vNull, .vNull => true
  | .vUndef, .vUndef => true
  | _, _ => false

/-- `Object.keys` of an association-list object. -/
def keysOf (fs : List (String × Value)) : List String :=
  fs.map Prod.fst

/-- JS property read `obj[key]`: the first binding of the key, and
`undefined` when the key is absent. -/
def lookupD : List (String × Value) → String → Value
  | [], _ => .vUndef
  | p :: fs, k => if p.1 == k then p.2 else lookupD fs k

/-- JS `key in obj`. -/
def hasKey (fs : List (String × Value)) (k : String) : Bool :=
  (keysOf fs).contains k

/-- JS array read `arr[i]` (undefined out of range). -/
def getIdx (xs : List Value) (i : Nat) : Value :=
  xs.getD i .vUndef

mutual
/-- Number of `Value` constructors in a value; the termination measure for
all recursive functions of the engine (object keys do not count: the
mixed array-versus-object path of `DiffEngine.diffValues` reads an array
as an object, which adds index keys but no value constructors). -/
def vsize : Value → Nat
  | .vStr _ => 1
  | .vNum _ => 1
  | .vBool _ => 1
  | .vNull => 1
  | .vUndef => 1
  | .vArr xs => 1 + lsize xs
  | .vObj fs => 1 + fsize fs

/-- Total `vsize` of a list of values. -/
def lsize : List Value → Nat
  | [] => 0
  | x :: xs => vsize x + lsize xs

/-- Total `vsize` of the range of an association list. -/
def fsize : List (String × Value) → Nat
  | [] => 0
  | p :: fs => vsize p.2 + fsize fs
end

theorem vsize_pos (v : Value) : 0 < vsize v := by
  cases v <;> simp [vsize]

theorem vsize_mem_le {v : Value} {xs : List Value} (h : v ∈ xs) :
    vsize v ≤ lsize xs := by
  induction xs with
  | nil => cases h
  | cons y ys ih =>
      rcases List.mem_cons.mp h with rfl | h
      · simp [lsize]
      · have := ih h
        simp [lsize]; omega

theorem vsize_lookupD_le (fs : List (String × Value)) (k : String) :
    vsize (lookupD fs k) ≤ 1 + fsize fs := by
  induction fs with
  | nil => simp [lookupD, vsize]
  | cons p ps ih =>
      by_cases h : p.1 = k
      · simp [lookupD, h, fsize]; omega
      · have hb : (p.1 == k) = false := by simpa using h
        simp [lookupD, hb, fsize]
        omega

theorem vsize_lookupD_le_of_hasKey (fs : List (String × Value)) (k : String)
    (h : hasKey fs k = true) : vsize (lookupD fs k) ≤ fsize fs := by
  induction fs with
  | nil => simp [hasKey, keysOf] at h
  | cons p ps ih =>
      by_cases hpk : p.1 = k
      · simp [lookupD, hpk, fsize]
      · have hb : (p.1 == k) = false := by simpa using hpk
        have h' : hasKey ps k = true := by
          simp [hasKey, keysOf] at h ⊢
          rcases h with h | h
          · exact absurd h.symm hpk
          · exact h
        have := ih h'
        simp [lookupD, hb, fsize]
        omega

theorem vsize_getIdx_le (xs : List Value) (i : Nat) :
    vsize (getIdx xs i) ≤ 1 + lsize xs := by
  induction xs generalizing i with
  | nil => simp [getIdx, vsize]
  | cons x xs ih =>
      cases i with
      | zero => simp [getIdx, lsize]; omega
      | succ n =>
          have := ih n
          simp [getIdx, lsize] at this ⊢
          omega

/-- First-occurrence deduplication: the iteration order of
`new Set([...keysA, ...keysB])`. -/
def dedupFirst : List String → List String
  | [] => []
  | x :: xs => x :: dedupFirst (xs.filter (fun y => y != x))
termination_by l => l.length
decreasing_by
  simp
  have := List.length_filter_le (fun y => y != x) xs
  omega

theorem mem_dedupFirst {a : String} : ∀ {l : List String},
    a ∈ dedupFirst l ↔ a ∈ l := by
  intro l
  induction l using dedupFirst.induct with
  | case1 => simp [dedupFirst]
  | case2 x xs ih =>
      rw [dedupFirst]
      simp only [List.mem_cons, ih, List.mem_filter, bne_iff_ne, ne_eq]
      by_cases hax : a = x <;> simp [hax]

theorem nodup_dedupFirst : ∀ (l : List String), (dedupFirst l).Nodup := by
  intro l
  induction l using dedupFirst.induct with
  | case1 => simp [dedupFirst]
  | case2 x xs ih =>
      rw [dedupFirst]
      refine List.nodup_cons.mpr ⟨?_, ih⟩
      intro hx
      have := mem_dedupFirst.mp hx
      simp [List.mem_filter] at this

theorem toFinset_dedupFirst (l : List String) :
    (dedupFirst l).toFinset = l.toFinset := by
  ext a
  simp [List.mem_toFinset, mem_dedupFirst]

theorem length_dedupFirst (l : List String) :
    (dedupFirst l).length = l.toFinset.card := by
  rw [← toFinset_dedupFirst, List.toFinset_card_of_nodup (nodup_dedupFirst l)]

/-- Modelled from the spec: the external edit-distance collaborator (the npm
`leven` package) — the minimum number of single-character insertions,
deletions and substitutions transforming one string into the other, via the
textbook recurrence (helper for one fixed head character). -/
def levGo (x : Char) (xs : List Char) (f : List Char → Nat) : List Char → Nat
  | [] => xs.length + 1
  | y :: ys =>
      if x = y then f ys
      else 1 + min (f ys) (min (levGo x xs f ys) (f (y :: ys)))

/-- Modelled from the spec: the external edit-distance collaborator (the npm
`leven` package), on character lists. -/
def lev : List Char → List Char → Nat
  | [], ys => ys.length
  | x :: xs, ys => levGo x xs (lev xs) ys

/-- Modelled from the spec: `leven(a, b)` on JS strings. -/
def leven (a b : String) : Nat :=
  lev a.data b.data

theorem lev_nil_left (ys : List Char) : lev [] ys = ys.length := rfl

theorem lev_nil_right : ∀ (xs : List Char), lev xs [] = xs.length
  | [] => rfl
  | _ :: _ => rfl

theorem lev_cons_cons (x y : Char) (xs ys : List Char) :
    lev (x :: xs) (y :: ys) =
      if x = y then lev xs ys
      else 1 + min (lev xs ys) (min (lev (x :: xs) ys) (lev xs (y :: ys))) :=
  rfl

theorem lev_self : ∀ (xs : List Char), lev xs xs = 0
  | [] => rfl
  | x :: xs => by
      rw [lev_cons_cons]
      simp [lev_self xs]

theorem lev_comm : ∀ (xs ys : List Char), lev xs ys = lev ys xs := by
  intro xs
  induction xs with
  | nil =>
      intro ys
      rw [lev_nil_left, lev_nil_right]
  | cons x xs ihx =>
      intro ys
      induction ys with
      | nil => rw [lev_nil_left, lev_nil_right]
      | cons y ys ihy =>
          rw [lev_cons_cons, lev_cons_cons]
          by_cases hxy : x = y
          · simp [hxy, eq_comm, ihx ys]
          · have hyx : ¬ y = x := fun h => hxy h.symm
            simp only [hxy, hyx, if_false]
            rw [ihx ys, ihx (y :: ys), ihy]
            omega

theorem lev_le_max : ∀ (xs ys : List Char), lev xs ys ≤ max xs.length ys.length := by
  intro xs
  induction xs with
  | nil =>
      intro ys
      rw [lev_nil_left]
      omega
  | cons x xs ihx =>
      intro ys
      induction ys with
      | nil =>
          rw [lev_nil_right]
          omega
      | cons y ys ihy =>
          rw [lev_cons_cons]
          by_cases hxy : x = y
          · have := ihx ys
            simp [hxy]
            simp at this
            omega
          · have h1 := ihx ys
            have h2 := ihx (y :: ys)
            simp only [hxy, if_false]
            simp at h1 h2 ihy ⊢
            omega


theorem natlex3 {a b c a' b' c' : ℕ}
    (h : a < a' ∨ (a = a' ∧ (b < b' ∨ (b = b' ∧ c < c')))) :
    Prod.Lex (fun x y => x < y) (Prod.Lex (fun x y => x < y) (fun x y => x < y))
      (a, b, c) (a', b', c') := by
  rcases h with h | ⟨rfl, h | ⟨rfl, h⟩⟩
  · exact Prod.Lex.left _ _ h
  · exact Prod.Lex.right _ (Prod.Lex.left _ _ h)
  · exact Prod.Lex.right _ (Prod.Lex.right _ h)

mutual
/-- `isEqual` from src/diff.ts (identical to `ValueComparator.isEqual`):
deep, order-sensitive, type-sensitive structural equality. -/
def isEqual (a b : Value) : Bool :=
  if strictEq a b then true
  else if isNullish a || isNullish b then strictEq a b
  else if typeOf a ≠ typeOf b then false
  else if typeOf a ≠ ("object") then strictEq a b
  else match a, b with
    | .vArr xs, .vArr ys =>
        if xs.length ≠ ys.length then false else isEqualList xs ys
    | .vArr _, _ => false
    | _, .vArr _ => false
    | .vObj fa, .vObj fb =>
        if (keysOf fa).length ≠ (keysOf fb).length then false
        else isEqualKeys (keysOf fa) fa fb
    | _, _ => false
termination_by (vsize a + vsize b, 0, 0)
decreasing_by
  · apply natlex3
    simp [vsize]
    omega
  · apply natlex3
    simp [vsize]
    omega

/-- The index loop of `isEqual` over two arrays (of equal length at the
call site). -/
def isEqualList : List Value → List Value → Bool
  | [], _ => true
  | _, [] => true
  | x :: tx, y :: ty => isEqual x y && isEqualList tx ty
termination_by xs ys => (lsize xs + lsize ys, 1, 0)
decreasing_by
  · apply natlex3
    simp [lsize]
    omega
  · apply natlex3
    have hx : 0 < vsize x := vsize_pos x
    have hy : 0 < vsize y := vsize_pos y
    simp [lsize]
    omega

/-- The `for (const key of keysA)` loop of `isEqual` over two objects. -/
def isEqualKeys : List String → List (String × Value) → List (String × Value) → Bool
  | [], _, _ => true
  | k :: tk, fa, fb =>
      if !(keysOf fb).contains k then false
      else isEqual (lookupD fa k) (lookupD fb k) && isEqualKeys tk fa fb
termination_by ks fa fb => (fsize fa + fsize fb + 1, 0, ks.length)
decreasing_by
  · have h1 := vsize_lookupD_le fa k
    have h2 : vsize (lookupD fb k) ≤ fsize fb := by
      apply vsize_lookupD_le_of_hasKey
      simp [hasKey]
      simpa using ‹¬ (!(keysOf fb).contains k) = true›
    rcases Nat.lt_or_ge (vsize (lookupD fa k) + vsize (lookupD fb k))
        (fsize fa + fsize fb + 1) with hlt | hge
    · exact natlex3 (Or.inl hlt)
    · have heq : vsize (lookupD fa k) + vsize (lookupD fb k) =
          fsize fa + fsize fb + 1 := by omega
      exact natlex3 (Or.inr ⟨heq, Or.inr ⟨rfl, by simp⟩⟩)
  · exact natlex3 (Or.inr ⟨rfl, Or.inr ⟨rfl, by simp⟩⟩)
end

theorem isEqual_arr_arr (xs ys : List Value) :
    isEqual (.vArr xs) (.vArr ys) =
      if xs.length ≠ ys.length then false else isEqualList xs ys := by
  rw [isEqual]
  rfl

theorem isEqual_obj_obj (fa fb : List (String × Value)) :
    isEqual (.vObj fa) (.vObj fb) =
      if (keysOf fa).length ≠ (keysOf fb).length then false
      else isEqualKeys (keysOf fa) fa fb := by
  rw [isEqual]
  rfl

theorem isEqualList_nil_left (ys : List Value) : isEqualList [] ys = true := by
  rw [isEqualList]

theorem isEqualList_cons (x y : Value) (xs ys : List Value) :
    isEqualList (x :: xs) (y :: ys) = (isEqual x y && isEqualList xs ys) := by
  rw [isEqualList]

theorem isEqualKeys_nil (fa fb : List (String × Value)) :
    isEqualKeys [] fa fb = true := by
  rw [isEqualKeys]

theorem isEqualKeys_cons (k : String) (ks : List String)
    (fa fb : List (String × Value)) :
    isEqualKeys (k :: ks) fa fb =
      if !(keysOf fb).contains k then false
      else isEqual (lookupD fa k) (lookupD fb k) && isEqualKeys ks fa fb := by
  rw [isEqualKeys]

theorem isEqual_of_strictEq {a b : Value} (h : strictEq a b = true) :
    isEqual a b = true := by
  rw [isEqual.eq_def, h]
  rfl

theorem isEqualList_refl_aux :
    ∀ xs : List Value, (∀ x ∈ xs, isEqual x x = true) → isEqualList xs xs = true := by
  intro xs h
  induction xs with
  | nil => rw [isEqualList_nil_left]
  | cons x xs ih =>
      rw [isEqualList_cons, h x (by simp), ih (fun y hy => h y (by simp [hy]))]
      rfl

theorem isEqualKeys_refl_aux :
    ∀ (ks : List String) (fa : List (String × Value)),
      (∀ k ∈ ks, hasKey fa k = true) →
      (∀ k ∈ ks, isEqual (lookupD fa k) (lookupD fa k) = true) →
      isEqualKeys ks fa fa = true := by
  intro ks fa hk he
  induction ks with
  | nil => rw [isEqualKeys_nil]
  | cons k ks ih =>
      rw [isEqualKeys_cons]
      have h1 : (keysOf fa).contains k = true := hk k (by simp)
      rw [show (!(keysOf fa).contains k) = false by simpa using h1]
      simp only [Bool.false_eq_true, if_false]
      rw [he k (by simp), ih (fun y hy => hk y (by simp [hy])) (fun y hy => he y (by simp [hy]))]
      rfl

theorem isEqual_refl (v : Value) : isEqual v v = true := by
  have main : ∀ n v, vsize v ≤ n → isEqual v v = true := by
    intro n
    induction n with
    | zero =>
        intro v h
        have := vsize_pos v
        omega
    | succ n ih =>
        intro v h
        cases v with
        | vStr s => exact isEqual_of_strictEq (by show (s == s) = true; simp)
        | vNum q => exact isEqual_of_strictEq (by show (q == q) = true; simp)
        | vBool b => exact isEqual_of_strictEq (by show (b == b) = true; simp)
        | vNull => exact isEqual_of_strictEq rfl
        | vUndef => exact isEqual_of_strictEq rfl
        | vArr xs =>
            rw [isEqual_arr_arr, if_neg (by simp)]
            have hsz : lsize xs ≤ n := by
              simp [vsize] at h; omega
            apply isEqualList_refl_aux
            intro x hx
            exact ih x (le_trans (vsize_mem_le hx) hsz)
        | vObj fs =>
            rw [isEqual_obj_obj, if_neg (by simp)]
            have hsz : fsize fs ≤ n := by
              simp [vsize] at h; omega
            apply isEqualKeys_refl_aux
            · intro k hk
              simp [hasKey, keysOf]
              simp [keysOf] at hk
              exact hk
            · intro k hk
              have hkk : hasKey fs k = true := by
                simp [hasKey, keysOf] at hk ⊢
                exact hk
              exact ih _ (le_trans (vsize_lookupD_le_of_hasKey fs k hkk) hsz)
  exact main (vsize v) v le_rfl

mutual
/-- `calculateSimilarity` from src/diff.ts (identical to the guarded
`ValueComparator.calculateSimilarity`): a similarity score for two values,
1 meaning identical. -/
def calcSim (a b : Value) : ℚ :=
  if strictEq a b then 1
  else if isNullish a || isNullish b then 0
  else if typeOf a ≠ typeOf b then 0
  else match a, b with
    | .vStr sa, .vStr sb =>
        let distance : ℚ := (leven sa sb : ℚ)
        let maxLength : ℚ := ((max sa.length sb.length : Nat) : ℚ)
        if maxLength = 0 then 1 else 1 - distance / maxLength
    | .vNum na, .vNum nb =>
        let m : ℚ := max |na| |nb|
        if m = 0 then 1 else 1 - |na - nb| / (m * 2)
    | .vBool ba, .vBool bb => if ba == bb then 1 else 0
    | .vArr xs, .vArr ys =>
        if xs.length = 0 ∧ ys.length = 0 then 1
        else if xs.length = 0 ∨ ys.length = 0 then 0
        else
          let total := calcSimZip xs ys
          let minLength : ℚ := ((min xs.length ys.length : Nat) : ℚ)
          let maxLength : ℚ := ((max xs.length ys.length : Nat) : ℚ)
          (total / maxLength) * (minLength / maxLength)
    | .vObj fa, .vObj fb =>
        if (keysOf fa).length = 0 ∧ (keysOf fb).length = 0 then 1
        else if (keysOf fa).length = 0 ∨ (keysOf fb).length = 0 then 0
        else
          let allKeys := dedupFirst (keysOf fa ++ keysOf fb)
          let total := calcSimObj allKeys fa fb
          let common : ℚ :=
            ((((keysOf fa).filter (fun k => (keysOf fb).contains k)).length : Nat) : ℚ)
          (total / (allKeys.length : ℚ)) * (common / (allKeys.length : ℚ))
    | _, _ => if strictEq a b then 1 else 0
termination_by (vsize a + vsize b, 0, 0)
decreasing_by
  · apply natlex3
    simp [vsize]
    omega
  · apply natlex3
    simp [vsize]
    omega

/-- The `for (let i = 0; i < minLength; i++)` accumulation of
`calculateSimilarity` over two arrays. -/
def calcSimZip : List Value → List Value → ℚ
  | [], _ => 0
  | _, [] => 0
  | x :: tx, y :: ty => calcSim x y + calcSimZip tx ty
termination_by xs ys => (lsize xs + lsize ys, 1, 0)
decreasing_by
  · apply natlex3
    have hx : 0 < vsize x := vsize_pos x
    have hy : 0 < vsize y := vsize_pos y
    simp [lsize]
    omega
  · apply natlex3
    have hx : 0 < vsize x := vsize_pos x
    have hy : 0 < vsize y := vsize_pos y
    simp [lsize]
    omega

/-- The `for (const key of allKeys)` accumulation of `calculateSimilarity`
over the shared keys of two objects. -/
def calcSimObj : List String → List (String × Value) → List (String × Value) → ℚ
  | [], _, _ => 0
  | k :: tk, fa, fb =>
      (if hasKey fa k && hasKey fb k then calcSim (lookupD fa k) (lookupD fb k) else 0)
      + calcSimObj tk fa fb
termination_by ks fa fb => (fsize fa + fsize fb + 1, 0, ks.length)
decreasing_by
  · have hg : (hasKey fa k && hasKey fb k) = true :=
      ‹(hasKey fa k && hasKey fb k) = true›
    have hga : hasKey fa k = true := (Bool.and_eq_true_iff.mp hg).1
    have hgb : hasKey fb k = true := (Bool.and_eq_true_iff.mp hg).2
    have h1 := vsize_lookupD_le_of_hasKey fa k hga
    have h2 := vsize_lookupD_le_of_hasKey fb k hgb
    apply natlex3
    omega
  · exact natlex3 (Or.inr ⟨rfl, Or.inr ⟨rfl, by simp⟩⟩)
end

theorem calcSim_str_str (sa sb : String) :
    calcSim (.vStr sa) (.vStr sb) =
      if sa == sb then 1
      else if ((max sa.length sb.length : Nat) : ℚ) = 0 then 1
      else 1 - (leven sa sb : ℚ) / ((max sa.length sb.length : Nat) : ℚ) := by
  rw [calcSim]
  rfl

theorem calcSim_num_num (na nb : ℚ) :
    calcSim (.vNum na) (.vNum nb) =
      if na == nb then 1
      else if max |na| |nb| = 0 then 1
      else 1 - |na - nb| / (max |na| |nb| * 2) := by
  rw [calcSim]
  rfl

theorem calcSim_bool_bool (ba bb : Bool) :
    calcSim (.vBool ba) (.vBool bb) = if ba == bb then 1 else 0 := by
  rw [calcSim.eq_def]
  cases ba <;> cases bb <;> rfl

theorem calcSim_arr_arr (xs ys : List Value) :
    calcSim (.vArr xs) (.vArr ys) =
      if xs.length = 0 ∧ ys.length = 0 then 1
      else if xs.length = 0 ∨ ys.length = 0 then 0
      else (calcSimZip xs ys / ((max xs.length ys.length : Nat) : ℚ)) *
        (((min xs.length ys.length : Nat) : ℚ) / ((max xs.length ys.length : Nat) : ℚ)) := by
  rw [calcSim]
  rfl

theorem calcSim_obj_obj (fa fb : List (String × Value)) :
    calcSim (.vObj fa) (.vObj fb) =
      if (keysOf fa).length = 0 ∧ (keysOf fb).length = 0 then 1
      else if (keysOf fa).length = 0 ∨ (keysOf fb).length = 0 then 0
      else (calcSimObj (dedupFirst (keysOf fa ++ keysOf fb)) fa fb /
          ((dedupFirst (keysOf fa ++ keysOf fb)).length : ℚ)) *
        (((((keysOf fa).filter (fun k => (keysOf fb).contains k)).length : Nat) : ℚ) /
          ((dedupFirst (keysOf fa ++ keysOf fb)).length : ℚ)) := by
  rw [calcSim]
  rfl

theorem leven_self (a : String) : leven a a = 0 :=
  lev_self a.data

theorem leven_comm (a b : String) : leven a b = leven b a :=
  lev_comm a.data b.data

theorem leven_le_max (a b : String) : leven a b ≤ max a.length b.length :=
  lev_le_max a.data b.data

/-- The array loop of `calculateSimilarity` written as the indexed sum the
spec describes: `Σ_{i < min(len)} similarity(a[i], b[i])`. -/
theorem calcSimZip_eq_sum (xs ys : List Value) :
    calcSimZip xs ys =
      ∑ i ∈ Finset.range (min xs.length ys.length),
        calcSim (getIdx xs i) (getIdx ys i) := by
  induction xs generalizing ys with
  | nil => rw [calcSimZip]; simp
  | cons x tx ih =>
      cases ys with
      | nil => rw [calcSimZip] <;> simp
      | cons y ty =>
          rw [calcSimZip]
          rw [ih ty]
          have hmin : min (x :: tx).length (y :: ty).length =
              (min tx.length ty.length) + 1 := by
            simp [Nat.succ_min_succ]
          rw [hmin, Finset.sum_range_succ']
          simp [getIdx]
          ring

/-- C7: array similarity is 1 for two empty arrays, 0 when exactly one side
is empty, and otherwise the sum of the pairwise similarities up to the
shorter length, divided by the longer length and multiplied by the
shorter/longer length ratio. -/
theorem C7_array_similarity (xs ys : List Value) :
    calcSim (.vArr xs) (.vArr ys) =
      if xs.length = 0 ∧ ys.length = 0 then 1
      else if xs.length = 0 ∨ ys.length = 0 then 0
      else (∑ i ∈ Finset.range (min xs.length ys.length),
          calcSim (getIdx xs i) (getIdx ys i)) / ((max xs.length ys.length : Nat) : ℚ) *
        (((min xs.length ys.length : Nat) : ℚ) / ((max xs.length ys.length : Nat) : ℚ)) := by
  rw [calcSim_arr_arr, calcSimZip_eq_sum]

/-- String similarity: formula, bounds, and the diagonal (shared helper). -/
theorem calcSim_str_props (a b : String) :
    (calcSim (.vStr a) (.vStr b) =
      if max a.length b.length = 0 then 1
      else 1 - (leven a b : ℚ) / ((max a.length b.length : Nat) : ℚ)) ∧
    0 ≤ calcSim (.vStr a) (.vStr b) ∧
    calcSim (.vStr a) (.vStr b) ≤ 1 ∧
    calcSim (.vStr a) (.vStr a) = 1 := by
  have hform : calcSim (.vStr a) (.vStr b) =
      if max a.length b.length = 0 then 1
      else 1 - (leven a b : ℚ) / ((max a.length b.length : Nat) : ℚ) := by
    rw [calcSim_str_str]
    by_cases hab : a = b
    · subst hab
      simp only [beq_self_eq_true, if_true, leven_self, Nat.cast_zero, zero_div]
      split <;> norm_num
    · have hb : (a == b) = false := by simpa using hab
      rw [hb]
      simp only [Bool.false_eq_true, if_false, Nat.cast_eq_zero]
  have hbounds : 0 ≤ calcSim (.vStr a) (.vStr b) ∧ calcSim (.vStr a) (.vStr b) ≤ 1 := by
    rw [hform]
    split_ifs with h
    · norm_num
    · have hd := leven_le_max a b
      have hm : 0 < max a.length b.length := Nat.pos_of_ne_zero h
      have hmq : (0 : ℚ) < ((max a.length b.length : Nat) : ℚ) := by
        exact_mod_cast hm
      have hdy : (leven a b : ℚ) / ((max a.length b.length : Nat) : ℚ) ≤ 1 := by
        rw [div_le_one hmq]
        exact_mod_cast hd
      have hd0 : (0 : ℚ) ≤ (leven a b : ℚ) / ((max a.length b.length : Nat) : ℚ) :=
        div_nonneg (by positivity) (le_of_lt hmq)
      constructor <;> linarith
  have hrefl : calcSim (.vStr a) (.vStr a) = 1 := by
    rw [calcSim_str_str]
    simp
  exact ⟨hform, hbounds.1, hbounds.2, hrefl⟩

/-- C8: string similarity is `1 - leven(a,b) / max(len a, len b)` (1 when
both strings are empty), always lies in `[0, 1]`, and is 1 on the
diagonal. -/
theorem C8_string_similarity (a b : String) :
    (calcSim (.vStr a) (.vStr b) =
      if max a.length b.length = 0 then 1
      else 1 - (leven a b : ℚ) / ((max a.length b.length : Nat) : ℚ)) ∧
    0 ≤ calcSim (.vStr a) (.vStr b) ∧
    calcSim (.vStr a) (.vStr b) ≤ 1 ∧
    calcSim (.vStr a) (.vStr a) = 1 :=
  calcSim_str_props a b

theorem beq_comm' {α : Type} [BEq α] [LawfulBEq α] (a b : α) : (a == b) = (b == a) := by
  by_cases h : a = b
  · subst h; rfl
  · have h1 : (a == b) = false := by simpa using h
    have h2 : (b == a) = false := by simpa using fun e => h e.symm
    rw [h1, h2]

mutual
/-- Well-formed JS value: every object node has pairwise-distinct keys (a
JS object cannot hold a duplicate key; the spec's data model states keys
are unique). -/
def wfV : Value → Bool
  | .vArr xs => wfL xs
  | .vObj fs => decide ((keysOf fs).Nodup) && wfF fs
  | _ => true

/-- All elements of an array are well formed. -/
def wfL : List Value → Bool
  | [] => true
  | x :: xs => wfV x && wfL xs

/-- All values of an object are well formed. -/
def wfF : List (String × Value) → Bool
  | [] => true
  | p :: fs => wfV p.2 && wfF fs
end

theorem wfL_mem {xs : List Value} {x : Value} (h : wfL xs = true) (hx : x ∈ xs) :
    wfV x = true := by
  induction xs with
  | nil => cases hx
  | cons y ys ih =>
      rw [wfL] at h
      rcases List.mem_cons.mp hx with rfl | hx
      · exact (Bool.and_eq_true_iff.mp h).1
      · exact ih (Bool.and_eq_true_iff.mp h).2 hx

theorem wfF_lookupD {fs : List (String × Value)} (h : wfF fs = true) (k : String) :
    wfV (lookupD fs k) = true := by
  induction fs with
  | nil => rw [lookupD]; rfl
  | cons p ps ih =>
      rw [wfF] at h
      rw [lookupD]
      by_cases hpk : p.1 = k
      · simp only [hpk, beq_self_eq_true, if_true]
        exact (Bool.and_eq_true_iff.mp h).1
      · rw [show (p.1 == k) = false by simpa using hpk]
        simpa using ih (Bool.and_eq_true_iff.mp h).2

theorem wfV_obj_parts {fs : List (String × Value)} (h : wfV (.vObj fs) = true) :
    (keysOf fs).Nodup ∧ wfF fs = true := by
  rw [wfV] at h
  have := Bool.and_eq_true_iff.mp h
  exact ⟨of_decide_eq_true this.1, this.2⟩

theorem calcSimZip_nil_right (xs : List Value) : calcSimZip xs [] = 0 := by
  cases xs with
  | nil => rw [calcSimZip]
  | cons x tx => rw [calcSimZip] <;> simp

theorem calcSimZip_comm_aux :
    ∀ (xs ys : List Value),
      (∀ x ∈ xs, ∀ y ∈ ys, calcSim x y = calcSim y x) →
      calcSimZip xs ys = calcSimZip ys xs := by
  intro xs
  induction xs with
  | nil =>
      intro ys _
      rw [calcSimZip, calcSimZip_nil_right]
  | cons x tx ih =>
      intro ys h
      cases ys with
      | nil => rw [calcSimZip_nil_right, calcSimZip]
      | cons y ty =>
          rw [calcSimZip, calcSimZip]
          rw [h x (by simp) y (by simp),
            ih ty (fun a ha b hb => h a (by simp [ha]) b (by simp [hb]))]

theorem calcSimObj_eq_sum (ks : List String) (fa fb : List (String × Value))
    (h : ks.Nodup) :
    calcSimObj ks fa fb =
      ∑ k ∈ ks.toFinset,
        (if hasKey fa k && hasKey fb k then
          calcSim (lookupD fa k) (lookupD fb k) else 0) := by
  induction ks with
  | nil => rw [calcSimObj]; simp
  | cons k tk ih =>
      rw [calcSimObj]
      have hk : k ∉ tk := (List.nodup_cons.mp h).1
      have htk : tk.Nodup := (List.nodup_cons.mp h).2
      rw [List.toFinset_cons, Finset.sum_insert (by simpa using hk), ih htk]

theorem filter_contains_length (kA kB : List String) (h : kA.Nodup) :
    ((kA.filter (fun k => kB.contains k)).length : ℚ) =
      ((kA.toFinset ∩ kB.toFinset).card : ℚ) := by
  have h1 : (kA.filter (fun k => kB.contains k)).Nodup := h.filter _
  rw [← List.toFinset_card_of_nodup h1, List.toFinset_filter]
  congr 2
  ext a
  simp [List.mem_toFinset]

theorem dedupFirst_append_length (kA kB : List String) :
    ((dedupFirst (kA ++ kB)).length : ℚ) =
      (((kA.toFinset ∪ kB.toFinset).card : Nat) : ℚ) := by
  rw [length_dedupFirst]
  congr 2
  simp

theorem calcSim_comm_n :
    ∀ n a b, vsize a + vsize b ≤ n → wfV a = true → wfV b = true →
      calcSim a b = calcSim b a := by
  intro n
  induction n with
  | zero =>
      intro a b h _ _
      have := vsize_pos a
      have := vsize_pos b
      omega
  | succ n ih =>
      intro a b h ha hb
      cases a <;> cases b <;>
        first
          | rfl
          | (rw [calcSim.eq_def, calcSim.eq_def]; rfl)
          | skip
      case vStr.vStr sa sb =>
          rw [calcSim_str_str, calcSim_str_str, beq_comm' sb sa,
            leven_comm sb sa, Nat.max_comm sb.length sa.length]
      case vNum.vNum na nb =>
          rw [calcSim_num_num, calcSim_num_num, beq_comm' nb na,
            abs_sub_comm nb na, max_comm |nb| |na|]
      case vBool.vBool ba bb =>
          rw [calcSim_bool_bool, calcSim_bool_bool, beq_comm' bb ba]
      case vArr.vArr xs ys =>
          rw [calcSim_arr_arr, calcSim_arr_arr]
          have hs : lsize xs + lsize ys ≤ n := by
            simp [vsize] at h; omega
          have hzip : calcSimZip xs ys = calcSimZip ys xs := by
            apply calcSimZip_comm_aux
            intro x hx y hy
            apply ih x y ?_ (wfL_mem (by rw [wfV] at ha; exact ha) hx)
              (wfL_mem (by rw [wfV] at hb; exact hb) hy)
            have h1 := vsize_mem_le hx
            have h2 := vsize_mem_le hy
            omega
          by_cases h1 : xs.length = 0 <;> by_cases h2 : ys.length = 0
          · rw [if_pos ⟨h1, h2⟩, if_pos ⟨h2, h1⟩]
          · rw [if_neg (show ¬(xs.length = 0 ∧ ys.length = 0) from fun hc => h2 hc.2),
              if_pos (show xs.length = 0 ∨ ys.length = 0 from Or.inl h1),
              if_neg (show ¬(ys.length = 0 ∧ xs.length = 0) from fun hc => h2 hc.1),
              if_pos (show ys.length = 0 ∨ xs.length = 0 from Or.inr h1)]
          · rw [if_neg (show ¬(xs.length = 0 ∧ ys.length = 0) from fun hc => h1 hc.1),
              if_pos (show xs.length = 0 ∨ ys.length = 0 from Or.inr h2),
              if_neg (show ¬(ys.length = 0 ∧ xs.length = 0) from fun hc => h1 hc.2),
              if_pos (show ys.length = 0 ∨ xs.length = 0 from Or.inl h2)]
          · rw [if_neg (show ¬(xs.length = 0 ∧ ys.length = 0) from fun hc => h1 hc.1),
              if_neg (show ¬(xs.length = 0 ∨ ys.length = 0) from fun hc => hc.elim h1 h2),
              if_neg (show ¬(ys.length = 0 ∧ xs.length = 0) from fun hc => h2 hc.1),
              if_neg (show ¬(ys.length = 0 ∨ xs.length = 0) from fun hc => hc.elim h2 h1)]
            rw [hzip, Nat.min_comm ys.length xs.length, Nat.max_comm ys.length xs.length]
      case vObj.vObj fa fb =>
          rw [calcSim_obj_obj, calcSim_obj_obj]
          obtain ⟨hnA, hwA⟩ := wfV_obj_parts ha
          obtain ⟨hnB, hwB⟩ := wfV_obj_parts hb
          have hs : fsize fa + fsize fb ≤ n := by
            simp [vsize] at h; omega
          have hsum : calcSimObj (dedupFirst (keysOf fa ++ keysOf fb)) fa fb =
              calcSimObj (dedupFirst (keysOf fb ++ keysOf fa)) fb fa := by
            rw [calcSimObj_eq_sum _ _ _ (nodup_dedupFirst _),
              calcSimObj_eq_sum _ _ _ (nodup_dedupFirst _)]
            rw [toFinset_dedupFirst, toFinset_dedupFirst]
            have hset : (keysOf fa ++ keysOf fb).toFinset =
                (keysOf fb ++ keysOf fa).toFinset := by
              simp [Finset.union_comm]
            rw [hset]
            apply Finset.sum_congr rfl
            intro k _
            rw [Bool.and_comm (hasKey fb k) (hasKey fa k)]
            by_cases hk : (hasKey fa k && hasKey fb k) = true
            · rw [hk]
              simp only [if_true]
              have hka : hasKey fa k = true := (Bool.and_eq_true_iff.mp hk).1
              have hkb : hasKey fb k = true := (Bool.and_eq_true_iff.mp hk).2
              apply ih _ _ ?_ (wfF_lookupD hwA k) (wfF_lookupD hwB k)
              have h1 := vsize_lookupD_le_of_hasKey fa k hka
              have h2 := vsize_lookupD_le_of_hasKey fb k hkb
              omega
            · rw [Bool.not_eq_true] at hk
              rw [hk]
              rfl
          have hden : ((dedupFirst (keysOf fa ++ keysOf fb)).length : ℚ) =
              ((dedupFirst (keysOf fb ++ keysOf fa)).length : ℚ) := by
            rw [dedupFirst_append_length, dedupFirst_append_length,
              Finset.union_comm]
          have hcom : (((keysOf fa).filter (fun k => (keysOf fb).contains k)).length : ℚ) =
              (((keysOf fb).filter (fun k => (keysOf fa).contains k)).length : ℚ) := by
            rw [filter_contains_length _ _ hnA, filter_contains_length _ _ hnB,
              Finset.inter_comm]
          by_cases h1 : (keysOf fa).length = 0 <;> by_cases h2 : (keysOf fb).length = 0
          · rw [if_pos ⟨h1, h2⟩, if_pos ⟨h2, h1⟩]
          · rw [if_neg (show ¬((keysOf fa).length = 0 ∧ (keysOf fb).length = 0) from
                fun hc => h2 hc.2),
              if_pos (show (keysOf fa).length = 0 ∨ (keysOf fb).length = 0 from Or.inl h1),
              if_neg (show ¬((keysOf fb).length = 0 ∧ (keysOf fa).length = 0) from
                fun hc => h2 hc.1),
              if_pos (show (keysOf fb).length = 0 ∨ (keysOf fa).length = 0 from Or.inr h1)]
          · rw [if_neg (show ¬((keysOf fa).length = 0 ∧ (keysOf fb).length = 0) from
                fun hc => h1 hc.1),
              if_pos (show (keysOf fa).length = 0 ∨ (keysOf fb).length = 0 from Or.inr h2),
              if_neg (show ¬((keysOf fb).length = 0 ∧ (keysOf fa).length = 0) from
                fun hc => h1 hc.2),
              if_pos (show (keysOf fb).length = 0 ∨ (keysOf fa).length = 0 from Or.inl h2)]
          · rw [if_neg (show ¬((keysOf fa).length = 0 ∧ (keysOf fb).length = 0) from
                fun hc => h1 hc.1),
              if_neg (show ¬((keysOf fa).length = 0 ∨ (keysOf fb).length = 0) from
                fun hc => hc.elim h1 h2),
              if_neg (show ¬((keysOf fb).length = 0 ∧ (keysOf fa).length = 0) from
                fun hc => h2 hc.1),
              if_neg (show ¬((keysOf fb).length = 0 ∨ (keysOf fa).length = 0) from
                fun hc => hc.elim h2 h1)]
            rw [hsum, hden, hcom]

/-- C10: the similarity metric is symmetric on well-formed values (objects
with unique keys at every level); the external edit-distance model is
itself symmetric (`lev_comm`). -/
theorem C10_similarity_symm (a b : Value)
    (ha : wfV a = true) (hb : wfV b = true) : calcSim a b = calcSim b a :=
  calcSim_comm_n (vsize a + vsize b) a b le_rfl ha hb

/-- Witness for C10 at concrete values. -/
theorem C10_similarity_symm_witness :
    wfV (.vObj [(("a"), .vNum 1), (("b"), .vStr ("x"))]) = true ∧
    wfV (.vObj [(("a"), .vNum 2)]) = true ∧
    calcSim (.vObj [(("a"), .vNum 1), (("b"), .vStr ("x"))]) (.vObj [(("a"), .vNum 2)]) =
      calcSim (.vObj [(("a"), .vNum 2)]) (.vObj [(("a"), .vNum 1), (("b"), .vStr ("x"))]) := by
  refine ⟨?_, ?_, ?_⟩
  · simp [wfV, wfL, wfF, keysOf]
  · simp [wfV, wfL, wfF, keysOf]
  · exact C10_similarity_symm _ _ (by simp [wfV, wfL, wfF, keysOf])
      (by simp [wfV, wfL, wfF, keysOf])

/-- The scanning loop of `findBestMatch` (src/diff.ts): current best
`(index, score)` and the index `i` of the next candidate; a later candidate
replaces the best only with a strictly greater score. -/
def bestGo (item : Value) : List Value → Int × ℚ → Nat → Int × ℚ
  | [], best, _ => best
  | v :: vs, best, i =>
      let score := calcSim item v
      if score > best.2 then bestGo item vs ((i : Int), score) (i + 1)
      else bestGo item vs best (i + 1)

/-- `findBestMatch` from src/diff.ts (identical to
`ValueComparator.findBestMatch`): `[bestIndex, bestScore]` of `item` against
`array`, `[-1, 0]` when the array is empty. -/
def findBestMatch (item : Value) (arr : List Value) : Int × ℚ :=
  match arr with
  | [] => (-1, 0)
  | a0 :: rest => bestGo item rest (0, calcSim item a0) 1

/-- Options record of the library (src/types.ts `DiffOptions`). -/
structure DiffOptions where
  color : Bool := true
  keysOnly : Bool := false
  full : Bool := false
  outputKeys : List String := []
  ignoreKeys : List String := []
  ignoreValues : Bool := false

/-- A node of the `__old`/`__new`-style diff result: `undef` is the JS
`undefined` returned for an unchanged pair, `val` a raw retained value,
`change o n` the record `{ __old: o, __new: n }` (a Removed node carries
`__new: undefined`, an Added node `__old: undefined`), and `arr`/`map` the
array and object results. -/
inductive DiffRes where
  | undef
  | val (v : Value)
  | change (o n : Value)
  | arr (items : List DiffRes)
  | map (fields : List (String × DiffRes))

theorem vsize_getIdx_le_of_ne_nil {xs : List Value} (h : xs ≠ []) (i : Nat) :
    vsize (getIdx xs i) ≤ lsize xs := by
  cases xs with
  | nil => exact absurd rfl h
  | cons y ys =>
      have hy := vsize_pos y
      unfold getIdx
      rcases hg : (y :: ys)[i]? with _ | v
      · simp [List.getD, hg, vsize, lsize]
        omega
      · have hmem : v ∈ y :: ys := by
          have := List.getElem?_eq_some_iff.mp hg
          rcases this with ⟨hlt, hv⟩
          exact hv ▸ List.getElem_mem hlt
        have := vsize_mem_le hmem
        simp [List.getD, hg]
        omega

/-- The second pass of `diffArrays`: each index of the new array that was
not claimed turns into an Added node, in ascending index order. -/
def secondPassFrom : List Value → List Int → Nat → List DiffRes
  | [], _, _ => []
  | v :: vs, matched, j =>
      if matched.contains ((j : Int)) then secondPassFrom vs matched (j + 1)
      else DiffRes.change .vUndef v :: secondPassFrom vs matched (j + 1)

mutual
/-- `diffValues` from src/diff.ts: dispatch on equality, null/undefined,
type mismatch, strings, arrays, objects, and primitive fallthrough. -/
def diffValues (o n : Value) (opts : DiffOptions) : DiffRes :=
  if isEqual o n then (if opts.full then .val o else .undef)
  else if isNullish o || isNullish n then .change o n
  else if typeOf o ≠ typeOf n then .change o n
  else match o, n with
    | .vStr _, .vStr _ => .change o n
    | .vArr xs, .vArr ys => .arr (diffArrays xs ys opts)
    | .vObj fa, .vObj fb => .map (diffObjects fa fb opts)
    | _, _ => .change o n
termination_by (vsize o + vsize n, 0, 0)
decreasing_by
  · apply natlex3
    simp [vsize]
    omega
  · apply natlex3
    simp [vsize]
    omega

/-- `diffArrays` from src/diff.ts: empty fast path, identical fast path,
then the greedy first pass over the old array followed by the second pass
over the unmatched new indices. -/
def diffArrays (oldA newA : List Value) (opts : DiffOptions) : List DiffRes :=
  if oldA.length = 0 ∧ newA.length = 0 then []
  else if isEqual (.vArr oldA) (.vArr newA) then oldA.map .val
  else
    let fp := firstPass oldA newA opts []
    fp.1 ++ secondPassFrom newA fp.2 0
termination_by (lsize oldA + lsize newA, 1, 0)
decreasing_by
  apply natlex3
  omega

/-- The first pass of `diffArrays`: for each old element take
`findBestMatch` against the whole new array and accept it only when the
index is non-negative, the score exceeds 0.7 and the index is unclaimed;
otherwise emit a Removed node. Returns the emitted nodes and the final
claimed-index set. -/
def firstPass : List Value → List Value → DiffOptions → List Int →
    List DiffRes × List Int
  | [], _, _, matched => ([], matched)
  | x :: xs, newA, opts, matched =>
      let bm := findBestMatch x newA
      if 0 ≤ bm.1 ∧ bm.2 > 7/10 ∧ ¬ matched.contains bm.1 then
        let d := diffValues x (getIdx newA bm.1.toNat) opts
        let rest := firstPass xs newA opts (bm.1 :: matched)
        (d :: rest.1, rest.2)
      else
        let rest := firstPass xs newA opts matched
        (DiffRes.change x .vUndef :: rest.1, rest.2)
termination_by olds newA opts matched => (lsize olds + lsize newA, 0, olds.length)
decreasing_by
  · have hne : newA ≠ [] := by
      intro hnil
      subst hnil
      have : findBestMatch x [] = (-1, 0) := rfl
      rw [this] at *
      have hguard := ‹0 ≤ ((-1 : Int), (0 : ℚ)).1 ∧ ((-1 : Int), (0 : ℚ)).2 > 7/10 ∧
        ¬ matched.contains ((-1 : Int), (0 : ℚ)).1›
      simp at hguard
    have h1 := vsize_getIdx_le_of_ne_nil hne (findBestMatch x newA).1.toNat
    have h2 := vsize_pos x
    rcases Nat.lt_or_ge (vsize x + vsize (getIdx newA (findBestMatch x newA).1.toNat))
        (vsize x + lsize xs + lsize newA) with hlt | hge
    · exact natlex3 (Or.inl (by simpa [lsize] using hlt))
    · have heq : vsize x + vsize (getIdx newA (findBestMatch x newA).1.toNat) =
          vsize x + lsize xs + lsize newA := by omega
      apply natlex3
      right
      constructor
      · simpa [lsize] using heq
      · right
        exact ⟨rfl, by simp⟩
  · apply natlex3
    have := vsize_pos x
    simp [lsize]
    omega
  · apply natlex3
    have := vsize_pos x
    simp [lsize]
    omega

/-- `diffObjects` from src/diff.ts: iterate the first-occurrence union of
the two key sets. -/
def diffObjects (fa fb : List (String × Value)) (opts : DiffOptions) :
    List (String × DiffRes) :=
  objLoop (dedupFirst (keysOf fa ++ keysOf fb)) fa fb opts
termination_by (fsize fa + fsize fb, 1, 0)
decreasing_by
  apply natlex3
  simp

/-- The key loop of `diffObjects` (src/diff.ts): keys in both objects are
compared (or skipped under `keysOnly`), keys on one side only become
Removed/Added nodes. -/
def objLoop : List String → List (String × Value) → List (String × Value) →
    DiffOptions → List (String × DiffRes)
  | [], _, _, _ => []
  | k :: ks, fa, fb, opts =>
      if hasKey fa k && hasKey fb k then
        if opts.keysOnly then
          (if opts.full then [(k, DiffRes.val .vNull)] else []) ++ objLoop ks fa fb opts
        else
          if (!isEqual (lookupD fa k) (lookupD fb k)) || opts.full
              || opts.outputKeys.contains k then
            (k, diffValues (lookupD fa k) (lookupD fb k) opts) :: objLoop ks fa fb opts
          else objLoop ks fa fb opts
      else if hasKey fa k then
        (k, DiffRes.change (lookupD fa k) .vUndef) :: objLoop ks fa fb opts
      else
        (k, DiffRes.change .vUndef (lookupD fb k)) :: objLoop ks fa fb opts
termination_by ks fa fb opts => (fsize fa + fsize fb, 0, ks.length)
decreasing_by
  · exact natlex3 (Or.inr ⟨rfl, Or.inr ⟨rfl, by simp⟩⟩)
  · have hg : (hasKey fa k && hasKey fb k) = true :=
      ‹(hasKey fa k && hasKey fb k) = true›
    have h1 := vsize_lookupD_le_of_hasKey fa k (Bool.and_eq_true_iff.mp hg).1
    have h2 := vsize_lookupD_le_of_hasKey fb k (Bool.and_eq_true_iff.mp hg).2
    rcases Nat.lt_or_ge (vsize (lookupD fa k) + vsize (lookupD fb k))
        (fsize fa + fsize fb) with hlt | hge
    · exact natlex3 (Or.inl hlt)
    · have heq : vsize (lookupD fa k) + vsize (lookupD fb k) =
          fsize fa + fsize fb := by omega
      exact natlex3 (Or.inr ⟨heq, Or.inr ⟨rfl, by simp⟩⟩)
  · exact natlex3 (Or.inr ⟨rfl, Or.inr ⟨rfl, by simp⟩⟩)
  · exact natlex3 (Or.inr ⟨rfl, Or.inr ⟨rfl, by simp⟩⟩)
  · exact natlex3 (Or.inr ⟨rfl, Or.inr ⟨rfl, by simp⟩⟩)
  · exact natlex3 (Or.inr ⟨rfl, Or.inr ⟨rfl, by simp⟩⟩)
end

/-- `diff` from src/diff.ts: an undefined result (no differences) becomes
the empty object. -/
def diff (o n : Value) (opts : DiffOptions) : DiffRes :=
  match diffValues o n opts with
  | .undef => .map []
  | r => r

theorem hsim_goodbye : calcSim (.vStr ("hello")) (.vStr ("goodbye")) = 0 := by
  rw [calcSim_str_str]
  rw [show leven ("hello") ("goodbye") = 7 from by decide]
  rw [show (("hello" : String) == ("goodbye" : String)) = false from by decide]
  rw [show ("hello" : String).length = 5 from by decide]
  rw [show ("goodbye" : String).length = 7 from by decide]
  norm_num

theorem hsim_hallo : calcSim (.vStr ("hello")) (.vStr ("hallo")) = 4/5 := by
  rw [calcSim_str_str]
  rw [show leven ("hello") ("hallo") = 1 from by decide]
  rw [show (("hello" : String) == ("hallo" : String)) = false from by decide]
  rw [show ("hello" : String).length = 5 from by decide]
  rw [show ("hallo" : String).length = 5 from by decide]
  norm_num

theorem hsim_abcde : calcSim (.vStr ("abcd")) (.vStr ("abcde")) = 4/5 := by
  rw [calcSim_str_str]
  rw [show leven ("abcd") ("abcde") = 1 from by decide]
  rw [show (("abcd" : String) == ("abcde" : String)) = false from by decide]
  rw [show ("abcd" : String).length = 4 from by decide]
  rw [show ("abcde" : String).length = 5 from by decide]
  norm_num

theorem hsim_abcd_self : calcSim (.vStr ("abcd")) (.vStr ("abcd")) = 1 := by
  rw [calcSim_str_str]
  simp

theorem heqs_goodbye : isEqual (.vStr ("hello")) (.vStr ("goodbye")) = false := by
  rw [isEqual.eq_def]
  simp [strictEq, isNullish, typeOf]

theorem heqs_hallo : isEqual (.vStr ("hello")) (.vStr ("hallo")) = false := by
  rw [isEqual.eq_def]
  simp [strictEq, isNullish, typeOf]

theorem heqs_abcde : isEqual (.vStr ("abcd")) (.vStr ("abcde")) = false := by
  rw [isEqual.eq_def]
  simp [strictEq, isNullish, typeOf]

theorem heqs_abcd_self : isEqual (.vStr ("abcd")) (.vStr ("abcd")) = true :=
  isEqual_refl _

/-- C1: aligning `['hello']` with `['goodbye']` emits one Removed node
(`{ __old: 'hello', __new: undefined }`) followed by one Added node
(`{ __old: undefined, __new: 'goodbye' }`), because their similarity (0)
is below the 0.7 threshold; aligning `['hello']` with `['hallo']` emits a
single Changed matched-pair node `{ __old: 'hello', __new: 'hallo' }`,
because their similarity (0.8) exceeds 0.7. -/
theorem C1_alignment_threshold :
    diffArrays [.vStr ("hello")] [.vStr ("goodbye")] {} =
      [.change (.vStr ("hello")) .vUndef, .change .vUndef (.vStr ("goodbye"))] ∧
    diffArrays [.vStr ("hello")] [.vStr ("hallo")] {} =
      [.change (.vStr ("hello")) (.vStr ("hallo"))] ∧
    calcSim (.vStr ("hello")) (.vStr ("goodbye")) < 7/10 ∧
    calcSim (.vStr ("hello")) (.vStr ("hallo")) > 7/10 := by
  refine ⟨?_, ?_, ?_, ?_⟩
  · norm_num [diffArrays, isEqual_arr_arr, isEqualList_cons, isEqualList_nil_left,
      heqs_goodbye, firstPass, findBestMatch, bestGo, hsim_goodbye, secondPassFrom,
      diffValues, getIdx]
  · norm_num [diffArrays, isEqual_arr_arr, isEqualList_cons, isEqualList_nil_left,
      heqs_hallo, firstPass, findBestMatch, bestGo, hsim_hallo, secondPassFrom,
      diffValues, getIdx, isNullish, typeOf]
  · rw [hsim_goodbye]; norm_num
  · rw [hsim_hallo]; norm_num

/-- Modelled from the spec: the selection rule of §4.3 steps 2-3 — for one
old element, the best-similarity index of the new array among the indices
NOT yet claimed, ties broken by the lowest index (scan with strict
improvement). The code (`findBestMatch`) scans ALL indices instead; this
definition exists to compare the two. -/
def specBestUnclaimedGo (item : Value) :
    List Value → List Nat → Nat → Option (Nat × ℚ) → Option (Nat × ℚ)
  | [], _, _, best => best
  | v :: vs, claimed, i, best =>
      if claimed.contains i then specBestUnclaimedGo item vs claimed (i + 1) best
      else
        match best with
        | none => specBestUnclaimedGo item vs claimed (i + 1) (some (i, calcSim item v))
        | some (bi, bs) =>
            if calcSim item v > bs then
              specBestUnclaimedGo item vs claimed (i + 1) (some (i, calcSim item v))
            else specBestUnclaimedGo item vs claimed (i + 1) (some (bi, bs))

/-- Modelled from the spec: entry point of the §4.3 unclaimed-best-match
selection rule. -/
def specBestUnclaimed (item : Value) (news : List Value) (claimed : List Nat) :
    Option (Nat × ℚ) :=
  specBestUnclaimedGo item news claimed 0 none

/-- C2 counterexample: on `['abcd','abcd']` vs `['abcd','abcde']` the first
old element claims new index 0, and for the second old element the code
emits a Removed node (its global best match, index 0, is claimed), although
the best match among the UNCLAIMED indices — the rule the claim states —
is index 1 with similarity 0.8 > 0.7 and would have been accepted. -/
theorem C2_counterexample :
    diffArrays [.vStr ("abcd"), .vStr ("abcd")] [.vStr ("abcd"), .vStr ("abcde")] {} =
      [.undef, .change (.vStr ("abcd")) .vUndef, .change .vUndef (.vStr ("abcde"))] ∧
    specBestUnclaimed (.vStr ("abcd")) [.vStr ("abcd"), .vStr ("abcde")] [0] =
      some (1, 4/5) ∧
    (4/5 : ℚ) > 7/10 := by
  refine ⟨?_, ?_, by norm_num⟩
  · norm_num [diffArrays, isEqual_arr_arr, isEqualList_cons, isEqualList_nil_left,
      heqs_abcde, heqs_abcd_self, firstPass, findBestMatch, bestGo, hsim_abcde,
      hsim_abcd_self, secondPassFrom, diffValues, getIdx]
  · norm_num [specBestUnclaimed, specBestUnclaimedGo, hsim_abcde, hsim_abcd_self]

theorem bestGo_props (item : Value) :
    ∀ (vs : List Value) (bi : Nat) (bs : ℚ) (i : Nat),
      ∃ (ri : Nat) (rs : ℚ),
        bestGo item vs ((bi : Int), bs) i = ((ri : Int), rs) ∧
        ((ri = bi ∧ rs = bs ∧ ∀ j, j < vs.length → calcSim item (getIdx vs j) ≤ bs) ∨
         (∃ j, j < vs.length ∧ ri = i + j ∧ rs = calcSim item (getIdx vs j) ∧ bs < rs ∧
           (∀ j', j' < vs.length → calcSim item (getIdx vs j') ≤ rs) ∧
           (∀ j', j' < j → calcSim item (getIdx vs j') < rs))) := by
  intro vs
  induction vs with
  | nil =>
      intro bi bs i
      exact ⟨bi, bs, rfl, Or.inl ⟨rfl, rfl, by simp⟩⟩
  | cons v vs ih =>
      intro bi bs i
      rw [bestGo]
      by_cases hs : calcSim item v > bs
      · rw [if_pos hs]
        obtain ⟨ri, rs, heq, hcase⟩ := ih i (calcSim item v) (i + 1)
        refine ⟨ri, rs, heq, Or.inr ?_⟩
        rcases hcase with ⟨hri, hrs, hall⟩ | ⟨j, hj, hri, hrs, hlt, hall, hpre⟩
        · refine ⟨0, by simp, by omega, ?_, ?_, ?_, ?_⟩
          · simpa [getIdx] using hrs
          · rw [hrs]; exact hs
          · intro j' hj'
            cases j' with
            | zero => simp [getIdx, hrs]
            | succ m =>
                simp only [List.length_cons] at hj'
                have := hall m (by omega)
                simp only [getIdx, List.getD_cons_succ] at *
                rw [hrs]
                exact this
          · intro j' hj'
            omega
        · refine ⟨j + 1, by simpa using by omega, by omega, ?_, by linarith, ?_, ?_⟩
          · simpa [getIdx] using hrs
          · intro j' hj'
            cases j' with
            | zero =>
                simp only [getIdx, List.getD_cons_zero]
                linarith
            | succ m =>
                simp only [List.length_cons] at hj'
                have := hall m (by omega)
                simpa [getIdx] using this
          · intro j' hj'
            cases j' with
            | zero =>
                simp only [getIdx, List.getD_cons_zero]
                linarith
            | succ m =>
                have := hpre m (by omega)
                simpa [getIdx] using this
      · rw [if_neg hs]
        push_neg at hs
        obtain ⟨ri, rs, heq, hcase⟩ := ih bi bs (i + 1)
        refine ⟨ri, rs, heq, ?_⟩
        rcases hcase with ⟨hri, hrs, hall⟩ | ⟨j, hj, hri, hrs, hlt, hall, hpre⟩
        · refine Or.inl ⟨hri, hrs, ?_⟩
          intro j' hj'
          cases j' with
          | zero => simpa [getIdx] using hs
          | succ m =>
              simp only [List.length_cons] at hj'
              have := hall m (by omega)
              simpa [getIdx] using this
        · refine Or.inr ⟨j + 1, by simpa using by omega, by omega, ?_, hlt, ?_, ?_⟩
          · simpa [getIdx] using hrs
          · intro j' hj'
            cases j' with
            | zero =>
                simp only [getIdx, List.getD_cons_zero]
                linarith
            | succ m =>
                simp only [List.length_cons] at hj'
                have := hall m (by omega)
                simpa [getIdx] using this
          · intro j' hj'
            cases j' with
            | zero =>
                simp only [getIdx, List.getD_cons_zero]
                linarith
            | succ m =>
                have := hpre m (by omega)
                simpa [getIdx] using this

theorem findBestMatch_spec (item : Value) (arr : List Value) (h : arr ≠ []) :
    ∃ i : Nat, i < arr.length ∧
      findBestMatch item arr = ((i : Int), calcSim item (getIdx arr i)) ∧
      (∀ j, j < arr.length → calcSim item (getIdx arr j) ≤ calcSim item (getIdx arr i)) ∧
      (∀ j, j < i → calcSim item (getIdx arr j) < calcSim item (getIdx arr i)) := by
  cases arr with
  | nil => exact absurd rfl h
  | cons a0 rest =>
      have hfb : findBestMatch item (a0 :: rest) =
          bestGo item rest ((0 : Int), calcSim item a0) 1 := rfl
      obtain ⟨ri, rs, heq, hcase⟩ := bestGo_props item rest 0 (calcSim item a0) 1
      have heq' : bestGo item rest ((0 : Int), calcSim item a0) 1 = ((ri : Int), rs) := by
        simpa using heq
      rcases hcase with ⟨hri, hrs, hall⟩ | ⟨j, hj, hri, hrs, hlt, hall, hpre⟩
      · have hg0 : getIdx (a0 :: rest) 0 = a0 := by simp [getIdx]
        refine ⟨0, by simp, ?_, ?_, by omega⟩
        · rw [hfb, heq', hri, hrs, hg0]
        · intro j' hj'
          rw [hg0]
          cases j' with
          | zero => rw [hg0]
          | succ m =>
              simp only [List.length_cons] at hj'
              have := hall m (by omega)
              simpa [getIdx] using this
      · subst hri
        have hGI : getIdx (a0 :: rest) (1 + j) = getIdx rest j := by
          simp [getIdx, Nat.add_comm 1 j]
        refine ⟨1 + j, by simp; omega, ?_, ?_, ?_⟩
        · rw [hfb, heq', hGI, ← hrs]
        · intro j' hj'
          rw [hGI, ← hrs]
          cases j' with
          | zero =>
              have hg0 : getIdx (a0 :: rest) 0 = a0 := by simp [getIdx]
              rw [hg0]
              exact le_of_lt hlt
          | succ m =>
              simp only [List.length_cons] at hj'
              have := hall m (by omega)
              simpa [getIdx] using this
        · intro j' hj'
          rw [hGI, ← hrs]
          cases j' with
          | zero =>
              have hg0 : getIdx (a0 :: rest) 0 = a0 := by simp [getIdx]
              rw [hg0]
              exact hlt
          | succ m =>
              have := hpre m (by omega)
              simpa [getIdx] using this

/-- C2 amended: for each old element, `diffArrays` selects via
`findBestMatch` the new-array index with the highest similarity among ALL
indices (not just the unclaimed ones), ties broken by the lowest index; the
match is accepted only if that global best score exceeds 0.7 AND the chosen
index is not already claimed by a previous old element; otherwise the old
element is emitted as Removed — even when some unclaimed index also
exceeds 0.7. -/
theorem C2_amended_selection :
    (∀ (item : Value) (arr : List Value), arr ≠ [] →
      ∃ i : Nat, i < arr.length ∧
        findBestMatch item arr = ((i : Int), calcSim item (getIdx arr i)) ∧
        (∀ j, j < arr.length → calcSim item (getIdx arr j) ≤ calcSim item (getIdx arr i)) ∧
        (∀ j, j < i → calcSim item (getIdx arr j) < calcSim item (getIdx arr i))) ∧
    (∀ (x : Value) (xs newA : List Value) (opts : DiffOptions) (matched : List Int),
      (0 ≤ (findBestMatch x newA).1 ∧ (findBestMatch x newA).2 > 7/10 ∧
          ¬ matched.contains (findBestMatch x newA).1 →
        firstPass (x :: xs) newA opts matched =
          (diffValues x (getIdx newA (findBestMatch x newA).1.toNat) opts ::
            (firstPass xs newA opts ((findBestMatch x newA).1 :: matched)).1,
           (firstPass xs newA opts ((findBestMatch x newA).1 :: matched)).2)) ∧
      (¬ (0 ≤ (findBestMatch x newA).1 ∧ (findBestMatch x newA).2 > 7/10 ∧
          ¬ matched.contains (findBestMatch x newA).1) →
        firstPass (x :: xs) newA opts matched =
          (DiffRes.change x .vUndef :: (firstPass xs newA opts matched).1,
           (firstPass xs newA opts matched).2))) := by
  refine ⟨findBestMatch_spec, ?_⟩
  intro x xs newA opts matched
  constructor
  · intro hg
    rw [firstPass]
    simp only [if_pos hg]
  · intro hg
    rw [firstPass]
    simp only [if_neg hg]

/-- Witness for C2's amended claim at a concrete input. -/
theorem C2_amended_selection_witness :
    ([Value.vStr ("hallo"), Value.vStr ("goodbye")] ≠ ([] : List Value)) ∧
    (∃ i : Nat, i < [Value.vStr ("hallo"), Value.vStr ("goodbye")].length ∧
      findBestMatch (.vStr ("hello")) [Value.vStr ("hallo"), Value.vStr ("goodbye")] =
        ((i : Int),
          calcSim (.vStr ("hello")) (getIdx [Value.vStr ("hallo"), Value.vStr ("goodbye")] i)) ∧
      (∀ j, j < [Value.vStr ("hallo"), Value.vStr ("goodbye")].length →
        calcSim (.vStr ("hello")) (getIdx [Value.vStr ("hallo"), Value.vStr ("goodbye")] j) ≤
          calcSim (.vStr ("hello")) (getIdx [Value.vStr ("hallo"), Value.vStr ("goodbye")] i)) ∧
      (∀ j, j < i →
        calcSim (.vStr ("hello")) (getIdx [Value.vStr ("hallo"), Value.vStr ("goodbye")] j) <
          calcSim (.vStr ("hello")) (getIdx [Value.vStr ("hallo"), Value.vStr ("goodbye")] i))) :=
  ⟨by simp, C2_amended_selection.1 _ _ (by simp)⟩

/-- The four node classifications of the spec's DiffNode (§3), matching
`DiffType` of src/types.ts. -/
inductive Kind where
  | added
  | removed
  | changed
  | unchanged
deriving DecidableEq, BEq

/-- Modelled from the spec: the keys compared for two objects — the union
of both key sets minus `ignoreKeys` (§4.4 rule 7). -/
def specObjKeys (fa fb : List (String × Value)) (opts : DiffOptions) : List String :=
  (dedupFirst (keysOf fa ++ keysOf fb)).filter (fun k => !opts.ignoreKeys.contains k)

/-- Modelled from the spec: the children kinds the Array Aligner (§4.3)
produces — per old element the best UNCLAIMED match (accepted over 0.7,
matched pair Changed or Unchanged by `isEqual`, else Removed), then one
Added per unclaimed new index in ascending order. -/
def specAlignKinds : List Value → List Value → List Nat → List Kind
  | [], news, claimed =>
      ((List.range news.length).filter (fun j => !claimed.contains j)).map
        (fun _ => Kind.added)
  | x :: xs, news, claimed =>
      match specBestUnclaimed x news claimed with
      | some (i, s) =>
          if s > 7/10 then
            (if isEqual x (getIdx news i) then Kind.unchanged else Kind.changed) ::
              specAlignKinds xs news (i :: claimed)
          else Kind.removed :: specAlignKinds xs news claimed
      | none => Kind.removed :: specAlignKinds xs news claimed

/-- `vsize` of an optional value (absent counts 0). -/
def osize : Option Value → Nat
  | none => 0
  | some v => vsize v

mutual
/-- Modelled from the spec: the `kind` of the DiffNode `compareRaw`
produces (§4.4 rules 1-8), for the DiffType-based core (`createDiff` of
src/diff.ts in the current variant) that is absent from src/ — only its
tests, types and callers remain. `structureOnly` is the `keysOnly` option
key. -/
def specKind (o n : Option Value) (opts : DiffOptions) : Kind :=
  match o, n with
  | none, none => .unchanged
  | none, some _ => .added
  | some _, none => .removed
  | some ov, some nv =>
      match ov, nv with
      | .vArr xs, .vArr ys =>
          if isEqual (.vArr xs) (.vArr ys) then .unchanged
          else if (specAlignKinds xs ys []).all (fun k => k == Kind.unchanged) then
            .unchanged
          else .changed
      | .vObj fa, .vObj fb =>
          if (specObjKinds (specObjKeys fa fb opts) fa fb opts).all
              (fun k => k == Kind.unchanged) then .unchanged
          else .changed
      | .vArr _, _ => .changed
      | _, .vArr _ => .changed
      | .vObj _, _ => .changed
      | _, .vObj _ => .changed
      | _, _ => if isEqual ov nv then .unchanged else .changed
termination_by (osize o + osize n, 0, 0)
decreasing_by
  apply natlex3
  simp [osize, vsize]
  omega

/-- Modelled from the spec: the children kinds of an object comparison —
one kind per considered key, honoring `structureOnly`/`ignoreValues`
(presence-only: both-present keys are Unchanged) and classifying one-sided
keys as Removed/Added (§4.4 rule 7). -/
def specObjKinds : List String → List (String × Value) → List (String × Value) →
    DiffOptions → List Kind
  | [], _, _, _ => []
  | k :: ks, fa, fb, opts =>
      (if hasKey fa k && hasKey fb k then
        (if opts.keysOnly || opts.ignoreValues then Kind.unchanged
         else specKind (some (lookupD fa k)) (some (lookupD fb k)) opts)
       else if hasKey fa k then Kind.removed
       else Kind.added) :: specObjKinds ks fa fb opts
termination_by ks fa fb opts => (fsize fa + fsize fb + 1, 0, ks.length)
decreasing_by
  · have hg : (hasKey fa k && hasKey fb k) = true :=
      ‹(hasKey fa k && hasKey fb k) = true›
    have h1 := vsize_lookupD_le_of_hasKey fa k (Bool.and_eq_true_iff.mp hg).1
    have h2 := vsize_lookupD_le_of_hasKey fb k (Bool.and_eq_true_iff.mp hg).2
    apply natlex3
    simp [osize]
    omega
  · exact natlex3 (Or.inr ⟨rfl, Or.inr ⟨rfl, by simp⟩⟩)
end

/-- Modelled from the spec: `hasDifference(oldValue, newValue, options)`
(§6) — true iff the root kind is not Unchanged; realized in the repo as
`isDiff` (src/index.ts) over the missing `createDiff`. -/
def hasDifference (o n : Value) (opts : DiffOptions) : Bool :=
  specKind (some o) (some n) opts != Kind.unchanged

theorem specKind_arr_arr (xs ys : List Value) (opts : DiffOptions) :
    specKind (some (.vArr xs)) (some (.vArr ys)) opts =
      if isEqual (.vArr xs) (.vArr ys) then .unchanged
      else if (specAlignKinds xs ys []).all (fun k => k == Kind.unchanged) then .unchanged
      else .changed := by
  rw [specKind]

theorem specKind_obj_obj (fa fb : List (String × Value)) (opts : DiffOptions) :
    specKind (some (.vObj fa)) (some (.vObj fb)) opts =
      if (specObjKinds (specObjKeys fa fb opts) fa fb opts).all
          (fun k => k == Kind.unchanged) then .unchanged
      else .changed := by
  rw [specKind]

theorem specKind_of_isEqual {a b : Value} (opts : DiffOptions)
    (hne : (∀ fa, a ≠ .vObj fa) ∨ (∀ fb, b ≠ .vObj fb))
    (h : isEqual a b = true) :
    specKind (some a) (some b) opts = .unchanged := by
  cases a <;> cases b <;>
    first
      | (exfalso; rw [isEqual.eq_def] at h; simp [strictEq, isNullish, typeOf] at h; done)
      | ((rw [specKind.eq_def]; simp [h]); done)
      | skip
  case vObj.vObj =>
      rcases hne with hne | hne
      · exact absurd rfl (hne _)
      · exact absurd rfl (hne _)

theorem specObjKinds_cons (k : String) (ks : List String)
    (fa fb : List (String × Value)) (opts : DiffOptions) :
    specObjKinds (k :: ks) fa fb opts =
      (if hasKey fa k && hasKey fb k then
        (if opts.keysOnly || opts.ignoreValues then Kind.unchanged
         else specKind (some (lookupD fa k)) (some (lookupD fb k)) opts)
       else if hasKey fa k then Kind.removed
       else Kind.added) :: specObjKinds ks fa fb opts := by
  rw [specObjKinds]

theorem specObjKinds_refl_aux :
    ∀ (ks : List String) (fa : List (String × Value)) (opts : DiffOptions),
      (∀ k ∈ ks, hasKey fa k = true) →
      (∀ k ∈ ks, specKind (some (lookupD fa k)) (some (lookupD fa k)) opts = .unchanged) →
      (specObjKinds ks fa fa opts).all (fun k => k == Kind.unchanged) = true := by
  intro ks fa opts hk hs
  induction ks with
  | nil => rw [specObjKinds]; rfl
  | cons k tk ih =>
      rw [specObjKinds_cons]
      have hkk : hasKey fa k = true := hk k (by simp)
      have h1 : (if hasKey fa k && hasKey fa k then
          (if opts.keysOnly || opts.ignoreValues then Kind.unchanged
           else specKind (some (lookupD fa k)) (some (lookupD fa k)) opts)
         else if hasKey fa k then Kind.removed
         else Kind.added) = Kind.unchanged := by
        rw [hkk]
        simp only [Bool.and_self, if_true]
        split
        · rfl
        · exact hs k (by simp)
      have h2 := ih (fun y hy => hk y (by simp [hy])) (fun y hy => hs y (by simp [hy]))
      rw [h1, List.all_cons, h2]
      rfl

theorem specKindRefl (v : Value) (opts : DiffOptions) :
    specKind (some v) (some v) opts = .unchanged := by
  have main : ∀ n v, vsize v ≤ n →
      specKind (some v) (some v) opts = .unchanged := by
    intro n
    induction n with
    | zero =>
        intro v h
        have := vsize_pos v
        omega
    | succ n ih =>
        intro v h
        cases v with
        | vObj fs =>
            have hsz : fsize fs ≤ n := by
              simp [vsize] at h; omega
            have hkey : ∀ k ∈ specObjKeys fs fs opts, hasKey fs k = true := by
              intro k hk
              simp only [specObjKeys] at hk
              have h1 := List.mem_filter.mp hk
              have h2 := mem_dedupFirst.mp h1.1
              have h3 : k ∈ keysOf fs := by
                rcases List.mem_append.mp h2 with hm | hm <;> exact hm
              simpa [hasKey] using h3
            have hall : (specObjKinds (specObjKeys fs fs opts) fs fs opts).all
                (fun k => k == Kind.unchanged) = true := by
              apply specObjKinds_refl_aux
              · exact hkey
              · intro k hk
                exact ih _ (le_trans
                  (vsize_lookupD_le_of_hasKey fs k (hkey k hk)) hsz)
            rw [specKind_obj_obj, hall]
            rfl
        | vArr xs =>
            exact specKind_of_isEqual opts (Or.inl (fun fa => by simp)) (isEqual_refl _)
        | vStr s =>
            exact specKind_of_isEqual opts (Or.inl (fun fa => by simp)) (isEqual_refl _)
        | vNum q =>
            exact specKind_of_isEqual opts (Or.inl (fun fa => by simp)) (isEqual_refl _)
        | vBool b =>
            exact specKind_of_isEqual opts (Or.inl (fun fa => by simp)) (isEqual_refl _)
        | vNull =>
            exact specKind_of_isEqual opts (Or.inl (fun fa => by simp)) (isEqual_refl _)
        | vUndef =>
            exact specKind_of_isEqual opts (Or.inl (fun fa => by simp)) (isEqual_refl _)
  exact main (vsize v) v le_rfl

/-- C6: comparing any value with itself under the empty options yields an
Unchanged root — both for the spec's `compareRaw` kind (modelled by
`specKind`) and for the `diff` of src/diff.ts, whose "no difference"
result is the empty object. -/
theorem C6_reflexivity (v : Value) :
    specKind (some v) (some v) ({} : DiffOptions) = .unchanged ∧
    diff v v ({} : DiffOptions) = .map [] := by
  refine ⟨specKindRefl v {}, ?_⟩
  have hd : diffValues v v ({} : DiffOptions) = .undef := by
    rw [diffValues.eq_def, isEqual_refl v]
    rfl
  rw [diff, hd]

/-- The auxiliary metadata of a Changed string node: the spec's
`meta.editDistance` (named `levenDistance` in src/types.ts) and
`meta.similarity`. -/
structure SpecMeta where
  editDistance : Nat
  similarity : ℚ

/-- Modelled from the spec: the node `compareRaw` produces for two strings
(§4.4 rule 5) — Unchanged when equal, else Changed with
`meta.editDistance`/`meta.similarity` attached; the producing DiffType
core (`createDiff` in src/diff.ts of the current variant) is absent from
src/, only its types (src/types.ts), formatter reads and e2e tests
remain. -/
def specCompareStrings (a b : String) : Kind × Option SpecMeta :=
  if a = b then (.unchanged, none)
  else (.changed, some ⟨leven a b, calcSim (.vStr a) (.vStr b)⟩)

/-- C4: comparing two unequal strings yields a Changed node carrying
`meta.editDistance` (a natural number, the edit distance) and
`meta.similarity`, a rational in `[0, 1]`. -/
theorem C4_string_meta (a b : String) (h : a ≠ b) :
    (specCompareStrings a b).1 = .changed ∧
    ∃ m : SpecMeta, (specCompareStrings a b).2 = some m ∧
      m.editDistance = leven a b ∧
      m.similarity = calcSim (.vStr a) (.vStr b) ∧
      0 ≤ m.similarity ∧ m.similarity ≤ 1 := by
  refine ⟨by simp [specCompareStrings, h], ⟨leven a b, calcSim (.vStr a) (.vStr b)⟩,
    by simp [specCompareStrings, h], rfl, rfl, ?_, ?_⟩
  · exact (calcSim_str_props a b).2.1
  · exact (calcSim_str_props a b).2.2.1

/-- Witness for C4 at `'hello'` versus `'world'`. -/
theorem C4_string_meta_witness :
    (("hello" : String) ≠ ("world" : String)) ∧
    ((specCompareStrings ("hello") ("world")).1 = .changed ∧
     ∃ m : SpecMeta, (specCompareStrings ("hello") ("world")).2 = some m ∧
       m.editDistance = leven ("hello") ("world") ∧
       m.similarity = calcSim (.vStr ("hello")) (.vStr ("world")) ∧
       0 ≤ m.similarity ∧ m.similarity ≤ 1) :=
  ⟨by decide, C4_string_meta ("hello") ("world") (by decide)⟩

/-- `Object.keys` view of a JS array starting at index `i`: index keys as
strings. -/
def arrFieldsFrom : List Value → Nat → List (String × Value)
  | [], _ => []
  | v :: vs, i => (toString i, v) :: arrFieldsFrom vs (i + 1)

/-- `Object.keys` view of a JS array (used when `DiffEngine.diffValues`
reaches its object branch with one array and one object operand: both have
`typeof === 'object'`). -/
def arrFields (xs : List Value) : List (String × Value) :=
  arrFieldsFrom xs 0

theorem fsize_arrFieldsFrom (xs : List Value) :
    ∀ i, fsize (arrFieldsFrom xs i) = lsize xs := by
  induction xs with
  | nil => intro i; rfl
  | cons v vs ih =>
      intro i
      simp [arrFieldsFrom, fsize, lsize, ih (i + 1)]

theorem fsize_arrFields (xs : List Value) : fsize (arrFields xs) = lsize xs :=
  fsize_arrFieldsFrom xs 0

/-- The equal-length fast path of `DiffEngine.diffArrays`
(src/core/DiffEngine.ts): positional comparison, keeping the old value for
equal elements and a change pair otherwise. -/
def sameLenPass : List Value → List Value → List DiffRes
  | [], _ => []
  | _, [] => []
  | x :: xs, y :: ys =>
      (if isEqual x y then DiffRes.val x else .change x y) :: sameLenPass xs ys

mutual
/-- `DiffEngine.diffValues` (src/core/DiffEngine.ts): as `diffValues` of
src/diff.ts, except that its object branch lacks the `!Array.isArray`
guards, so an array-versus-object pair (both `typeof === 'object'`) is
diffed as objects over the array's index keys. -/
def engDiffValues (o n : Value) (opts : DiffOptions) : DiffRes :=
  if isEqual o n then (if opts.full then .val o else .undef)
  else if isNullish o || isNullish n then .change o n
  else if typeOf o ≠ typeOf n then .change o n
  else match o, n with
    | .vStr _, _ => .change o n
    | .vArr xs, .vArr ys => .arr (engDiffArrays xs ys opts)
    | .vArr xs, .vObj fb => .map (engDiffObjects (arrFields xs) fb opts)
    | .vObj fa, .vArr ys => .map (engDiffObjects fa (arrFields ys) opts)
    | .vObj fa, .vObj fb => .map (engDiffObjects fa fb opts)
    | _, _ => .change o n
termination_by (vsize o + vsize n, 0, 0)
decreasing_by
  · apply natlex3
    simp [vsize]
    omega
  · apply natlex3
    have := fsize_arrFields xs
    simp [vsize]
    omega
  · apply natlex3
    have := fsize_arrFields ys
    simp [vsize]
    omega
  · apply natlex3
    simp [vsize]
    omega

/-- `DiffEngine.diffArrays` (src/core/DiffEngine.ts): empty fast path,
identical fast path, equal-length positional fast path, then the greedy
matching of `diffArrays`. -/
def engDiffArrays (oldA newA : List Value) (opts : DiffOptions) : List DiffRes :=
  if oldA.length = 0 ∧ newA.length = 0 then []
  else if isEqual (.vArr oldA) (.vArr newA) then oldA.map .val
  else if oldA.length = newA.length then sameLenPass oldA newA
  else
    let fp := engFirstPass oldA newA opts []
    fp.1 ++ secondPassFrom newA fp.2 0
termination_by (lsize oldA + lsize newA, 1, 0)
decreasing_by
  apply natlex3
  omega

/-- The first pass of `DiffEngine.diffArrays` for arrays of different
lengths (same greedy rule as `firstPass` of src/diff.ts). -/
def engFirstPass : List Value → List Value → DiffOptions → List Int →
    List DiffRes × List Int
  | [], _, _, matched => ([], matched)
  | x :: xs, newA, opts, matched =>
      let bm := findBestMatch x newA
      if 0 ≤ bm.1 ∧ bm.2 > 7/10 ∧ ¬ matched.contains bm.1 then
        let d := engDiffValues x (getIdx newA bm.1.toNat) opts
        let rest := engFirstPass xs newA opts (bm.1 :: matched)
        (d :: rest.1, rest.2)
      else
        let rest := engFirstPass xs newA opts matched
        (DiffRes.change x .vUndef :: rest.1, rest.2)
termination_by olds newA opts matched => (lsize olds + lsize newA, 0, olds.length)
decreasing_by
  · have hne : newA ≠ [] := by
      intro hnil
      subst hnil
      have : findBestMatch x [] = (-1, 0) := rfl
      rw [this] at *
      have hguard := ‹0 ≤ ((-1 : Int), (0 : ℚ)).1 ∧ ((-1 : Int), (0 : ℚ)).2 > 7/10 ∧
        ¬ matched.contains ((-1 : Int), (0 : ℚ)).1›
      simp at hguard
    have h1 := vsize_getIdx_le_of_ne_nil hne (findBestMatch x newA).1.toNat
    have h2 := vsize_pos x
    rcases Nat.lt_or_ge (vsize x + vsize (getIdx newA (findBestMatch x newA).1.toNat))
        (vsize x + lsize xs + lsize newA) with hlt | hge
    · exact natlex3 (Or.inl (by simpa [lsize] using hlt))
    · have heq : vsize x + vsize (getIdx newA (findBestMatch x newA).1.toNat) =
          vsize x + lsize xs + lsize newA := by omega
      apply natlex3
      right
      constructor
      · simpa [lsize] using heq
      · right
        exact ⟨rfl, by simp⟩
  · apply natlex3
    have := vsize_pos x
    simp [lsize]
    omega
  · apply natlex3
    have := vsize_pos x
    simp [lsize]
    omega

/-- `DiffEngine.diffObjects` (src/core/DiffEngine.ts): iterates the union
of the key sets, skipping `ignoreKeys`. -/
def engDiffObjects (fa fb : List (String × Value)) (opts : DiffOptions) :
    List (String × DiffRes) :=
  engObjLoop (dedupFirst (keysOf fa ++ keysOf fb)) fa fb opts
termination_by (fsize fa + fsize fb, 1, 0)
decreasing_by
  apply natlex3
  simp

/-- The key loop of `DiffEngine.diffObjects`: `ignoreKeys` members are
skipped entirely; both-present keys honor `keysOnly`/`ignoreValues`
(presence-only, the old value retained under `full`/`outputKeys`), then
changed values recurse, unchanged values are retained only under
`full`/`outputKeys`; one-sided keys become Removed/Added nodes. -/
def engObjLoop : List String → List (String × Value) → List (String × Value) →
    DiffOptions → List (String × DiffRes)
  | [], _, _, _ => []
  | k :: ks, fa, fb, opts =>
      if opts.ignoreKeys.contains k then engObjLoop ks fa fb opts
      else if hasKey fa k && hasKey fb k then
        if opts.keysOnly || opts.ignoreValues then
          (if opts.full || opts.outputKeys.contains k then
            [(k, DiffRes.val (lookupD fa k))] else []) ++ engObjLoop ks fa fb opts
        else
          if !isEqual (lookupD fa k) (lookupD fb k) then
            (k, engDiffValues (lookupD fa k) (lookupD fb k) opts) ::
              engObjLoop ks fa fb opts
          else if opts.full || opts.outputKeys.contains k then
            (k, DiffRes.val (lookupD fa k)) :: engObjLoop ks fa fb opts
          else engObjLoop ks fa fb opts
      else if hasKey fa k then
        (k, DiffRes.change (lookupD fa k) .vUndef) :: engObjLoop ks fa fb opts
      else
        (k, DiffRes.change .vUndef (lookupD fb k)) :: engObjLoop ks fa fb opts
termination_by ks fa fb opts => (fsize fa + fsize fb, 0, ks.length)
decreasing_by
  · exact natlex3 (Or.inr ⟨rfl, Or.inr ⟨rfl, by simp⟩⟩)
  · exact natlex3 (Or.inr ⟨rfl, Or.inr ⟨rfl, by simp⟩⟩)
  · have hg : (hasKey fa k && hasKey fb k) = true :=
      ‹(hasKey fa k && hasKey fb k) = true›
    have h1 := vsize_lookupD_le_of_hasKey fa k (Bool.and_eq_true_iff.mp hg).1
    have h2 := vsize_lookupD_le_of_hasKey fb k (Bool.and_eq_true_iff.mp hg).2
    rcases Nat.lt_or_ge (vsize (lookupD fa k) + vsize (lookupD fb k))
        (fsize fa + fsize fb) with hlt | hge
    · exact natlex3 (Or.inl hlt)
    · have heq : vsize (lookupD fa k) + vsize (lookupD fb k) =
          fsize fa + fsize fb := by omega
      exact natlex3 (Or.inr ⟨heq, Or.inr ⟨rfl, by simp⟩⟩)
  · exact natlex3 (Or.inr ⟨rfl, Or.inr ⟨rfl, by simp⟩⟩)
  · exact natlex3 (Or.inr ⟨rfl, Or.inr ⟨rfl, by simp⟩⟩)
  · exact natlex3 (Or.inr ⟨rfl, Or.inr ⟨rfl, by simp⟩⟩)
  · exact natlex3 (Or.inr ⟨rfl, Or.inr ⟨rfl, by simp⟩⟩)
  · exact natlex3 (Or.inr ⟨rfl, Or.inr ⟨rfl, by simp⟩⟩)
end

/-- `DiffEngine.diff` (src/core/DiffEngine.ts): an undefined result (no
differences) becomes the empty object. -/
def engDiff (o n : Value) (opts : DiffOptions) : DiffRes :=
  match engDiffValues o n opts with
  | .undef => .map []
  | r => r

theorem heq_num_13 : isEqual (.vNum 1) (.vNum 3) = false := by
  rw [isEqual.eq_def]
  simp [strictEq, isNullish, typeOf]

theorem heq_num_24 : isEqual (.vNum 2) (.vNum 4) = false := by
  rw [isEqual.eq_def]
  simp [strictEq, isNullish, typeOf]

theorem heq_obj_c5 : isEqual (.vObj [(("a"), .vNum 1), (("b"), .vNum 2)])
    (.vObj [(("a"), .vNum 3), (("b"), .vNum 4)]) = false := by
  rw [isEqual_obj_obj]
  norm_num [keysOf, isEqualKeys_cons, lookupD, heq_num_13]

/-- C5: on `{a:1,b:2}` versus `{a:3,b:4}`, setting `keysOnly`
(structureOnly) alone or `ignoreValues` alone each yields "no difference":
the `DiffEngine` returns the empty object, and the spec's `compareRaw`
root kind (modelled by `specKind`) is Unchanged under either option. -/
theorem C5_structureOnly_ignoreValues :
    engDiff (.vObj [(("a"), .vNum 1), (("b"), .vNum 2)])
      (.vObj [(("a"), .vNum 3), (("b"), .vNum 4)]) { keysOnly := true } = .map [] ∧
    engDiff (.vObj [(("a"), .vNum 1), (("b"), .vNum 2)])
      (.vObj [(("a"), .vNum 3), (("b"), .vNum 4)]) { ignoreValues := true } = .map [] ∧
    specKind (some (.vObj [(("a"), .vNum 1), (("b"), .vNum 2)]))
      (some (.vObj [(("a"), .vNum 3), (("b"), .vNum 4)])) { keysOnly := true } =
      .unchanged ∧
    specKind (some (.vObj [(("a"), .vNum 1), (("b"), .vNum 2)]))
      (some (.vObj [(("a"), .vNum 3), (("b"), .vNum 4)])) { ignoreValues := true } =
      .unchanged := by
  have dedup_ab : dedupFirst [("a" : String), ("b"), ("a"), ("b")] = [("a"), ("b")] := by
    rw [dedupFirst]
    rw [show List.filter (fun y => y != ("a" : String)) [("b"), ("a"), ("b")] =
      [("b"), ("b")] from by decide]
    rw [dedupFirst]
    rw [show List.filter (fun y => y != ("b" : String)) [("b")] = ([] : List String)
      from by decide]
    rw [dedupFirst]
  refine ⟨?_, ?_, ?_, ?_⟩
  · norm_num [engDiff, engDiffValues, engDiffObjects, engObjLoop,
      keysOf, hasKey, heq_obj_c5, isNullish, typeOf, dedup_ab]
  · norm_num [engDiff, engDiffValues, engDiffObjects, engObjLoop,
      keysOf, hasKey, heq_obj_c5, isNullish, typeOf, dedup_ab]
  · rw [specKind_obj_obj]
    norm_num [specObjKeys, specObjKinds, keysOf, hasKey, dedup_ab]
    intro h
    exact absurd h (by decide)
  · rw [specKind_obj_obj]
    norm_num [specObjKeys, specObjKinds, keysOf, hasKey, dedup_ab]
    intro h
    exact absurd h (by decide)

mutual
/-- `k` occurs as a direct key of some object node of the diff tree (at
any nesting level); raw values retained for display (`val`, `change`) are
not children and are not inspected. -/
def mentionsKey (k : String) : DiffRes → Bool
  | .arr items => mentionsKeyL k items
  | .map fields => mentionsKeyF k fields
  | _ => false

/-- `mentionsKey` over the items of an array node. -/
def mentionsKeyL (k : String) : List DiffRes → Bool
  | [] => false
  | r :: rs => mentionsKey k r || mentionsKeyL k rs

/-- `mentionsKey` over the fields of an object node. -/
def mentionsKeyF (k : String) : List (String × DiffRes) → Bool
  | [] => false
  | p :: ps => (p.1 == k) || mentionsKey k p.2 || mentionsKeyF k ps
end

theorem mentionsKey_undef (k : String) : mentionsKey k .undef = false := rfl

theorem mentionsKey_val (k : String) (v : Value) : mentionsKey k (.val v) = false := rfl

theorem mentionsKey_change (k : String) (o n : Value) :
    mentionsKey k (.change o n) = false := rfl

theorem mentionsKeyL_secondPass (k : String) :
    ∀ (vs : List Value) (matched : List Int) (j : Nat),
      mentionsKeyL k (secondPassFrom vs matched j) = false := by
  intro vs
  induction vs with
  | nil => intro matched j; rfl
  | cons v tv ih =>
      intro matched j
      rw [secondPassFrom]
      split
      · exact ih matched (j + 1)
      · rw [mentionsKeyL, mentionsKey_change, ih matched (j + 1)]
        rfl

theorem mentionsKeyL_map_val (k : String) :
    ∀ (vs : List Value), mentionsKeyL k (vs.map DiffRes.val) = false := by
  intro vs
  induction vs with
  | nil => rfl
  | cons v tv ih =>
      rw [List.map_cons, mentionsKeyL, mentionsKey_val, ih]
      rfl

theorem mentionsKeyL_sameLenPass (k : String) :
    ∀ (xs ys : List Value), mentionsKeyL k (sameLenPass xs ys) = false := by
  intro xs
  induction xs with
  | nil => intro ys; rw [sameLenPass]; rfl
  | cons x tx ih =>
      intro ys
      cases ys with
      | nil => rw [sameLenPass] <;> simp [mentionsKeyL]
      | cons y ty =>
          rw [sameLenPass, mentionsKeyL, ih ty]
          split <;> rfl

theorem mentionsKeyL_append (k : String) :
    ∀ (l1 l2 : List DiffRes),
      mentionsKeyL k (l1 ++ l2) = (mentionsKeyL k l1 || mentionsKeyL k l2) := by
  intro l1 l2
  induction l1 with
  | nil => rw [List.nil_append, mentionsKeyL]; rfl
  | cons r rs ih =>
      rw [List.cons_append, mentionsKeyL, mentionsKeyL, ih, Bool.or_assoc]

theorem mentionsKeyF_append (k : String) :
    ∀ (l1 l2 : List (String × DiffRes)),
      mentionsKeyF k (l1 ++ l2) = (mentionsKeyF k l1 || mentionsKeyF k l2) := by
  intro l1 l2
  induction l1 with
  | nil => rw [List.nil_append, mentionsKeyF]; rfl
  | cons r rs ih =>
      rw [List.cons_append, mentionsKeyF, mentionsKeyF, ih]
      simp [Bool.or_assoc]

theorem engFirstPass_no_key_aux (opts : DiffOptions) (k : String) (M : Nat)
    (ihm : ∀ a b, vsize a + vsize b ≤ M →
      mentionsKey k (engDiffValues a b opts) = false) :
    ∀ (olds newA : List Value) (matched : List Int),
      lsize olds + lsize newA ≤ M →
      mentionsKeyL k (engFirstPass olds newA opts matched).1 = false := by
  intro olds
  induction olds with
  | nil =>
      intro newA matched _
      rw [engFirstPass]
      rfl
  | cons x xs ih =>
      intro newA matched hsz
      rw [engFirstPass]
      split
      · rename_i hguard
        have hne : newA ≠ [] := by
          intro hnil
          subst hnil
          have hfb : findBestMatch x [] = (-1, 0) := rfl
          rw [hfb] at hguard
          simp at hguard
        rw [mentionsKeyL]
        have hd : mentionsKey k
            (engDiffValues x (getIdx newA (findBestMatch x newA).1.toNat) opts) = false := by
          apply ihm
          have h1 := vsize_getIdx_le_of_ne_nil hne (findBestMatch x newA).1.toNat
          simp [lsize] at hsz
          omega
        rw [hd]
        have hrest : mentionsKeyL k
            (engFirstPass xs newA opts ((findBestMatch x newA).1 :: matched)).1 = false := by
          apply ih
          have := vsize_pos x
          simp [lsize] at hsz ⊢
          omega
        rw [hrest]
        rfl
      · rw [mentionsKeyL, mentionsKey_change]
        have hrest : mentionsKeyL k (engFirstPass xs newA opts matched).1 = false := by
          apply ih
          have := vsize_pos x
          simp [lsize] at hsz ⊢
          omega
        rw [hrest]
        rfl

theorem engObjLoop_no_key_aux (opts : DiffOptions) (k : String)
    (hk : opts.ignoreKeys.contains k = true) (M : Nat)
    (ihm : ∀ a b, vsize a + vsize b ≤ M →
      mentionsKey k (engDiffValues a b opts) = false) :
    ∀ (keys : List String) (fa fb : List (String × Value)),
      fsize fa + fsize fb ≤ M →
      mentionsKeyF k (engObjLoop keys fa fb opts) = false := by
  intro keys
  induction keys with
  | nil =>
      intro fa fb _
      rw [engObjLoop]
      rfl
  | cons k' ks ih =>
      intro fa fb hsz
      have hrest := ih fa fb hsz
      rw [engObjLoop]
      split
      · exact hrest
      · rename_i hnotign
        have hk'ne : (k' == k) = false := by
          by_cases he : k' = k
          · subst he
            exact absurd hk (by simpa using hnotign)
          · simpa using he
        split
        · rename_i hboth
          split
          · split
            · rw [mentionsKeyF_append, mentionsKeyF, mentionsKeyF, hk'ne,
                mentionsKey_val, hrest]
              rfl
            · rw [List.nil_append, hrest]
          · split
            · rw [mentionsKeyF, hk'ne, hrest]
              have hd : mentionsKey k (engDiffValues (lookupD fa k') (lookupD fb k') opts)
                  = false := by
                apply ihm
                have h1 := vsize_lookupD_le_of_hasKey fa k' (Bool.and_eq_true_iff.mp hboth).1
                have h2 := vsize_lookupD_le_of_hasKey fb k' (Bool.and_eq_true_iff.mp hboth).2
                omega
              rw [hd]
              rfl
            · split
              · rw [mentionsKeyF, hk'ne, mentionsKey_val, hrest]
                rfl
              · exact hrest
        · split
          · rw [mentionsKeyF, hk'ne, mentionsKey_change, hrest]
            rfl
          · rw [mentionsKeyF, hk'ne, mentionsKey_change, hrest]
            rfl

theorem mentionsKey_arr (k : String) (l : List DiffRes) :
    mentionsKey k (.arr l) = mentionsKeyL k l := rfl

theorem mentionsKey_map (k : String) (l : List (String × DiffRes)) :
    mentionsKey k (.map l) = mentionsKeyF k l := rfl

theorem engDiffValues_no_key_aux :
    ∀ (N : Nat) (o n : Value) (opts : DiffOptions) (k : String),
      opts.ignoreKeys.contains k = true →
      vsize o + vsize n ≤ N →
      mentionsKey k (engDiffValues o n opts) = false := by
  intro N
  induction N with
  | zero =>
      intro o n opts k _ h
      have := vsize_pos o
      have := vsize_pos n
      omega
  | succ N ih =>
      intro o n opts k hk h
      rw [engDiffValues.eq_def]
      split
      · split
        · exact mentionsKey_val k o
        · exact mentionsKey_undef k
      · split
        · exact mentionsKey_change k o n
        · split
          · exact mentionsKey_change k o n
          · cases o <;> cases n <;>
              first
                | exact mentionsKey_change _ _ _
                | skip
            · rename_i xs ys h1x h2x h3x
              show mentionsKeyL k (engDiffArrays xs ys opts) = false
              rw [engDiffArrays]
              split
              · rw [mentionsKeyL]
              · split
                · exact mentionsKeyL_sameLenPass k xs ys
                · show mentionsKeyL k ((engFirstPass xs ys opts []).1 ++
                      secondPassFrom ys (engFirstPass xs ys opts []).2 0) = false
                  rw [mentionsKeyL_append]
                  have hsz : lsize xs + lsize ys ≤ N := by
                    simp [vsize] at h
                    omega
                  have h1 : mentionsKeyL k
                      (engFirstPass xs ys opts []).1 = false := by
                    apply engFirstPass_no_key_aux opts k (lsize xs + lsize ys)
                    · intro a b hab
                      exact ih a b opts k hk (le_trans hab hsz)
                    · exact le_refl _
                  rw [h1, mentionsKeyL_secondPass]
                  rfl
            · rename_i xs fb h1x h2x h3x
              show mentionsKeyF k (engDiffObjects (arrFields xs) fb opts) = false
              rw [engDiffObjects]
              apply engObjLoop_no_key_aux opts k hk (fsize (arrFields xs) + fsize fb)
              · intro a b hab
                apply ih a b opts k hk
                have := fsize_arrFields xs
                simp [vsize] at h
                omega
              · exact le_refl _
            · rename_i fa ys h1x h2x h3x
              show mentionsKeyF k (engDiffObjects fa (arrFields ys) opts) = false
              rw [engDiffObjects]
              apply engObjLoop_no_key_aux opts k hk (fsize fa + fsize (arrFields ys))
              · intro a b hab
                apply ih a b opts k hk
                have := fsize_arrFields ys
                simp [vsize] at h
                omega
              · exact le_refl _
            · rename_i fa fb h1x h2x h3x
              show mentionsKeyF k (engDiffObjects fa fb opts) = false
              rw [engDiffObjects]
              apply engObjLoop_no_key_aux opts k hk (fsize fa + fsize fb)
              · intro a b hab
                apply ih a b opts k hk
                simp [vsize] at h
                omega
              · exact le_refl _

theorem specObjKinds_unch_aux (fa fb : List (String × Value)) (ks : List String)
    (hKeys : ∀ k, hasKey fa k = hasKey fb k)
    (hAgree : ∀ k, ks.contains k = false → lookupD fa k = lookupD fb k) :
    ∀ (keys : List String),
      (∀ k1, k1 ∈ keys → ks.contains k1 = false ∧ hasKey fa k1 = true) →
      (specObjKinds keys fa fb { ignoreKeys := ks }).all
        (fun x => x == Kind.unchanged) = true := by
  intro keys
  induction keys with
  | nil =>
      intro _
      rw [specObjKinds]
      rfl
  | cons k1 tks ih =>
      intro hmem
      obtain ⟨hnk, hhk⟩ := hmem k1 (List.mem_cons_self k1 tks)
      have hboth : (hasKey fa k1 && hasKey fb k1) = true := by
        rw [← hKeys k1, hhk]
        rfl
      rw [specObjKinds_cons, List.all_cons]
      have hhead : ((if hasKey fa k1 && hasKey fb k1 then
            (if ({ ignoreKeys := ks } : DiffOptions).keysOnly ||
                ({ ignoreKeys := ks } : DiffOptions).ignoreValues then Kind.unchanged
             else specKind (some (lookupD fa k1)) (some (lookupD fb k1))
               { ignoreKeys := ks })
           else if hasKey fa k1 then Kind.removed
           else Kind.added) == Kind.unchanged) = true := by
        rw [if_pos hboth, if_neg (by simp), hAgree k1 hnk, specKindRefl]
        rfl
      rw [hhead, ih (fun k2 hk2 => hmem k2 (List.mem_cons_of_mem k1 hk2))]
      rfl

theorem hasDifference_ignoreKeys_aux (fa fb : List (String × Value)) (ks : List String)
    (hKeys : ∀ k, hasKey fa k = hasKey fb k)
    (hAgree : ∀ k, ks.contains k = false → lookupD fa k = lookupD fb k) :
    hasDifference (.vObj fa) (.vObj fb) { ignoreKeys := ks } = false := by
  rw [hasDifference, specKind_obj_obj]
  have hall := specObjKinds_unch_aux fa fb ks hKeys hAgree
      (specObjKeys fa fb { ignoreKeys := ks }) ?_
  · rw [if_pos hall]
    rfl
  · intro k1 hk1
    simp only [specObjKeys, List.mem_filter, Bool.not_eq_true'] at hk1
    refine ⟨hk1.2, ?_⟩
    have hmem := mem_dedupFirst.mp hk1.1
    rcases List.mem_append.mp hmem with hmA | hmB
    · simp [hasKey]
      exact hmA
    · rw [hKeys k1]
      simp [hasKey]
      exact hmB

theorem engObjLoop_empty_aux (fa fb : List (String × Value)) (ks : List String)
    (hKeys : ∀ k, hasKey fa k = hasKey fb k)
    (hAgree : ∀ k, ks.contains k = false → lookupD fa k = lookupD fb k) :
    ∀ (keys : List String),
      (∀ k1, k1 ∈ keys → ks.contains k1 = true ∨ hasKey fa k1 = true) →
      engObjLoop keys fa fb { ignoreKeys := ks } = [] := by
  intro keys
  induction keys with
  | nil =>
      intro _
      rw [engObjLoop]
  | cons k1 tks ih =>
      intro hmem
      have hrest := ih (fun k2 hk2 => hmem k2 (List.mem_cons_of_mem k1 hk2))
      rw [engObjLoop]
      by_cases hig : ks.contains k1 = true
      · rw [if_pos hig, hrest]
      · have hhk : hasKey fa k1 = true := by
          rcases hmem k1 (List.mem_cons_self k1 tks) with hc | hc
          · exact absurd hc hig
          · exact hc
        have hboth : (hasKey fa k1 && hasKey fb k1) = true := by
          rw [← hKeys k1, hhk]
          rfl
        have hig' : ks.contains k1 = false := by
          cases hc : ks.contains k1
          · rfl
          · exact absurd hc hig
        rw [if_neg hig, if_pos hboth, if_neg (by simp),
          hAgree k1 hig', if_neg (by simp [isEqual_refl]), if_neg (by simp), hrest]

theorem engDiffObjects_empty_aux (fa fb : List (String × Value)) (ks : List String)
    (hKeys : ∀ k, hasKey fa k = hasKey fb k)
    (hAgree : ∀ k, ks.contains k = false → lookupD fa k = lookupD fb k) :
    engDiffObjects fa fb { ignoreKeys := ks } = [] := by
  rw [engDiffObjects]
  apply engObjLoop_empty_aux fa fb ks hKeys hAgree
  intro k1 hk1
  right
  rcases List.mem_append.mp (mem_dedupFirst.mp hk1) with hmA | hmB
  · simp [hasKey]
    exact hmA
  · rw [hKeys k1]
    simp [hasKey]
    exact hmB

theorem engDiff_ignoreKeys_aux (fa fb : List (String × Value)) (ks : List String)
    (hKeys : ∀ k, hasKey fa k = hasKey fb k)
    (hAgree : ∀ k, ks.contains k = false → lookupD fa k = lookupD fb k) :
    engDiff (.vObj fa) (.vObj fb) { ignoreKeys := ks } = .map [] := by
  by_cases he : isEqual (.vObj fa) (.vObj fb) = true
  · have hv : engDiffValues (.vObj fa) (.vObj fb) { ignoreKeys := ks } = .undef := by
      rw [engDiffValues.eq_def, if_pos he, if_neg (by simp)]
    rw [engDiff, hv]
  · have hv : engDiffValues (.vObj fa) (.vObj fb) { ignoreKeys := ks } =
        .map (engDiffObjects fa fb { ignoreKeys := ks }) := by
      rw [engDiffValues.eq_def, if_neg he, if_neg (by simp [isNullish]),
        if_neg (by simp [typeOf])]
    rw [engDiff, hv, engDiffObjects_empty_aux fa fb ks hKeys hAgree]

/-- C3: for objects that differ only in the values of keys listed in
`ignoreKeys` (same key sets, equal values at every non-ignored key), the
boolean difference check with that option is false — both in the
spec-modelled DiffType core (`hasDifference`) and in `DiffEngine.diff`,
whose object diff is empty — and an ignored key is never emitted as a
child anywhere in a `DiffEngine.diffValues` result. -/
theorem C3_ignoreKeys (fa fb : List (String × Value)) (ks : List String)
    (hKeys : ∀ k, hasKey fa k = hasKey fb k)
    (hAgree : ∀ k, ks.contains k = false → lookupD fa k = lookupD fb k) :
    hasDifference (.vObj fa) (.vObj fb) { ignoreKeys := ks } = false ∧
    engDiffObjects fa fb { ignoreKeys := ks } = [] ∧
    engDiff (.vObj fa) (.vObj fb) { ignoreKeys := ks } = .map [] ∧
    (∀ (o n : Value) (opts : DiffOptions) (k : String),
      opts.ignoreKeys.contains k = true →
      mentionsKey k (engDiffValues o n opts) = false) :=
  ⟨hasDifference_ignoreKeys_aux fa fb ks hKeys hAgree,
   engDiffObjects_empty_aux fa fb ks hKeys hAgree,
   engDiff_ignoreKeys_aux fa fb ks hKeys hAgree,
   fun o n opts k hk =>
     engDiffValues_no_key_aux (vsize o + vsize n) o n opts k hk (le_refl _)⟩

theorem C3_ignoreKeys_witness :
    hasDifference (.vObj [("a", .vNum 1), ("timestamp", .vNum 100)])
        (.vObj [("a", .vNum 1), ("timestamp", .vNum 200)])
        { ignoreKeys := ["timestamp"] } = false ∧
    engDiffObjects [("a", .vNum 1), ("timestamp", .vNum 100)]
        [("a", .vNum 1), ("timestamp", .vNum 200)]
        { ignoreKeys := ["timestamp"] } = [] ∧
    engDiff (.vObj [("a", .vNum 1), ("timestamp", .vNum 100)])
        (.vObj [("a", .vNum 1), ("timestamp", .vNum 200)])
        { ignoreKeys := ["timestamp"] } = .map [] := by
  have h := C3_ignoreKeys [("a", .vNum 1), ("timestamp", .vNum 100)]
      [("a", .vNum 1), ("timestamp", .vNum 200)] ["timestamp"]
      (fun k => rfl) ?_
  · exact ⟨h.1, h.2.1, h.2.2.1⟩
  · intro k hk
    have hne : (("timestamp" : String) == k) = false := by
      cases hc : (("timestamp" : String) == k)
      · rfl
      · rw [show ("timestamp" : String) = k from by simpa using hc] at hk
        simp at hk
    show lookupD _ k = lookupD _ k
    simp only [lookupD]
    by_cases ha : (("a" : String) == k) = true
    · rw [if_pos ha, if_pos ha]
    · rw [if_neg ha, if_neg ha, if_neg (by simp [hne]), if_neg (by simp [hne])]

/-- A JS division with its error branch made explicit: `none` when the
divisor is zero (the case the guards of src/diff.ts must rule out),
otherwise the quotient. -/
def divO (x y : ℚ) : Option ℚ :=
  if y = 0 then none else some (x / y)

mutual
/-- `calculateSimilarity` with every division routed through `divO`, so a
division whose guard fails surfaces as `none` instead of being absorbed by
the total field division of ℚ. -/
def calcSimO (a b : Value) : Option ℚ :=
  if strictEq a b then some 1
  else if isNullish a || isNullish b then some 0
  else if typeOf a ≠ typeOf b then some 0
  else match a, b with
    | .vStr sa, .vStr sb =>
        let maxLength : ℚ := ((max sa.length sb.length : Nat) : ℚ)
        if maxLength = 0 then some 1
        else (divO ((leven sa sb : ℚ)) maxLength).map (fun q => 1 - q)
    | .vNum na, .vNum nb =>
        let m : ℚ := max |na| |nb|
        if m = 0 then some 1
        else (divO (|na - nb|) (m * 2)).map (fun q => 1 - q)
    | .vBool ba, .vBool bb => some (if ba == bb then 1 else 0)
    | .vArr xs, .vArr ys =>
        if xs.length = 0 ∧ ys.length = 0 then some 1
        else if xs.length = 0 ∨ ys.length = 0 then some 0
        else
          match calcSimZipO xs ys with
          | none => none
          | some total =>
              let minLength : ℚ := ((min xs.length ys.length : Nat) : ℚ)
              let maxLength : ℚ := ((max xs.length ys.length : Nat) : ℚ)
              match divO total maxLength, divO minLength maxLength with
              | some q1, some q2 => some (q1 * q2)
              | _, _ => none
    | .vObj fa, .vObj fb =>
        if (keysOf fa).length = 0 ∧ (keysOf fb).length = 0 then some 1
        else if (keysOf fa).length = 0 ∨ (keysOf fb).length = 0 then some 0
        else
          match calcSimObjO (dedupFirst (keysOf fa ++ keysOf fb)) fa fb with
          | none => none
          | some total =>
              let allLen : ℚ := ((dedupFirst (keysOf fa ++ keysOf fb)).length : ℚ)
              let common : ℚ :=
                ((((keysOf fa).filter (fun k => (keysOf fb).contains k)).length : Nat) : ℚ)
              match divO total allLen, divO common allLen with
              | some q1, some q2 => some (q1 * q2)
              | _, _ => none
    | _, _ => some (if strictEq a b then 1 else 0)
termination_by (vsize a + vsize b, 0, 0)
decreasing_by
  · apply natlex3
    simp [vsize]
    omega
  · apply natlex3
    simp [vsize]
    omega

/-- The array accumulation of `calcSimO`, propagating `none`. -/
def calcSimZipO : List Value → List Value → Option ℚ
  | [], _ => some 0
  | _, [] => some 0
  | x :: tx, y :: ty =>
      match calcSimO x y, calcSimZipO tx ty with
      | some s, some rest => some (s + rest)
      | _, _ => none
termination_by xs ys => (lsize xs + lsize ys, 1, 0)
decreasing_by
  · apply natlex3
    have hx : 0 < vsize x := vsize_pos x
    have hy : 0 < vsize y := vsize_pos y
    simp [lsize]
    omega
  · apply natlex3
    have hx : 0 < vsize x := vsize_pos x
    have hy : 0 < vsize y := vsize_pos y
    simp [lsize]
    omega

/-- The shared-key accumulation of `calcSimO`, propagating `none`. -/
def calcSimObjO : List String → List (String × Value) → List (String × Value) →
    Option ℚ
  | [], _, _ => some 0
  | k :: tk, fa, fb =>
      match (if hasKey fa k && hasKey fb k then
          calcSimO (lookupD fa k) (lookupD fb k) else some 0),
        calcSimObjO tk fa fb with
      | some s, some rest => some (s + rest)
      | _, _ => none
termination_by ks fa fb => (fsize fa + fsize fb + 1, 0, ks.length)
decreasing_by
  · have hg : (hasKey fa k && hasKey fb k) = true :=
      ‹(hasKey fa k && hasKey fb k) = true›
    have hga : hasKey fa k = true := (Bool.and_eq_true_iff.mp hg).1
    have hgb : hasKey fb k = true := (Bool.and_eq_true_iff.mp hg).2
    have h1 := vsize_lookupD_le_of_hasKey fa k hga
    have h2 := vsize_lookupD_le_of_hasKey fb k hgb
    apply natlex3
    omega
  · exact natlex3 (Or.inr ⟨rfl, Or.inr ⟨rfl, by simp⟩⟩)
end

theorem calcSimZipO_eq_aux (M : Nat)
    (ihm : ∀ a b, vsize a + vsize b ≤ M → calcSimO a b = some (calcSim a b)) :
    ∀ (xs ys : List Value), lsize xs + lsize ys ≤ M →
      calcSimZipO xs ys = some (calcSimZip xs ys) := by
  intro xs
  induction xs with
  | nil =>
      intro ys _
      rw [calcSimZipO, calcSimZip]
  | cons x tx ih =>
      intro ys hsz
      cases ys with
      | nil =>
          rw [calcSimZipO, calcSimZip]
          all_goals simp
      | cons y ty =>
          rw [calcSimZipO, calcSimZip]
          have h1 : calcSimO x y = some (calcSim x y) := by
            apply ihm
            simp [lsize] at hsz
            omega
          have h2 : calcSimZipO tx ty = some (calcSimZip tx ty) := by
            apply ih
            have := vsize_pos x
            have := vsize_pos y
            simp [lsize] at hsz ⊢
            omega
          rw [h1, h2]

theorem calcSimObjO_eq_aux (M : Nat)
    (ihm : ∀ a b, vsize a + vsize b ≤ M → calcSimO a b = some (calcSim a b)) :
    ∀ (ks : List String) (fa fb : List (String × Value)),
      fsize fa + fsize fb ≤ M →
      calcSimObjO ks fa fb = some (calcSimObj ks fa fb) := by
  intro ks
  induction ks with
  | nil =>
      intro fa fb _
      rw [calcSimObjO, calcSimObj]
  | cons k tk ih =>
      intro fa fb hsz
      rw [calcSimObjO, calcSimObj]
      rw [ih fa fb hsz]
      by_cases hk : (hasKey fa k && hasKey fb k) = true
      · rw [if_pos hk, if_pos hk]
        have h1 := vsize_lookupD_le_of_hasKey fa k (Bool.and_eq_true_iff.mp hk).1
        have h2 := vsize_lookupD_le_of_hasKey fb k (Bool.and_eq_true_iff.mp hk).2
        rw [ihm (lookupD fa k) (lookupD fb k) (by omega)]
      · rw [if_neg hk, if_neg hk]

theorem calcSimO_eq_n :
    ∀ n (a b : Value), vsize a + vsize b ≤ n →
      calcSimO a b = some (calcSim a b) := by
  intro n
  induction n with
  | zero =>
      intro a b h
      have := vsize_pos a
      have := vsize_pos b
      omega
  | succ n ih =>
      intro a b h
      cases hse : strictEq a b with
      | true =>
          rw [calcSimO.eq_def, calcSim.eq_def]
          simp [hse]
      | false =>
      cases hnl : (isNullish a || isNullish b) with
      | true =>
          rw [calcSimO.eq_def, calcSim.eq_def]
          simp [hse, hnl]
      | false =>
      by_cases hty : typeOf a = typeOf b
      case neg =>
          rw [calcSimO.eq_def, calcSim.eq_def]
          simp [hse, hnl, hty]
      case pos =>
          rw [calcSimO.eq_def, calcSim.eq_def]
          simp only [hse, hnl, hty, ne_eq, not_true_eq_false, Bool.false_eq_true,
            if_false, ite_false, not_false_eq_true, ite_true, Bool.or_self]
          cases a <;> cases b <;>
              first
                | rfl
                | skip
          · rename_i sa sb
            show (if ((max sa.length sb.length : Nat) : ℚ) = 0 then some 1
              else (divO ((leven sa sb : ℚ)) ((max sa.length sb.length : Nat) : ℚ)).map
                (fun q => 1 - q)) = some _
            by_cases hm : ((max sa.length sb.length : Nat) : ℚ) = 0
            · rw [if_pos hm]
              show _ = some (if ((max sa.length sb.length : Nat) : ℚ) = 0 then 1 else _)
              rw [if_pos hm]
            · rw [if_neg hm]
              show _ = some (if ((max sa.length sb.length : Nat) : ℚ) = 0 then 1
                else 1 - (leven sa sb : ℚ) / ((max sa.length sb.length : Nat) : ℚ))
              rw [if_neg hm, divO, if_neg hm]
              rfl
          · rename_i na nb
            show (if max |na| |nb| = 0 then some 1
              else (divO (|na - nb|) (max |na| |nb| * 2)).map (fun q => 1 - q)) = some _
            by_cases hm : max |na| |nb| = 0
            · rw [if_pos hm]
              show _ = some (if max |na| |nb| = 0 then 1 else _)
              rw [if_pos hm]
            · rw [if_neg hm]
              show _ = some (if max |na| |nb| = 0 then 1
                else 1 - |na - nb| / (max |na| |nb| * 2))
              rw [if_neg hm, divO, if_neg (by simp [hm])]
              rfl
          · rename_i xs ys
            by_cases h00 : xs.length = 0 ∧ ys.length = 0
            · show (if xs.length = 0 ∧ ys.length = 0 then some 1 else _) = some _
              rw [if_pos h00]
              show _ = some (if xs.length = 0 ∧ ys.length = 0 then 1 else _)
              rw [if_pos h00]
            · by_cases h0 : xs.length = 0 ∨ ys.length = 0
              · show (if xs.length = 0 ∧ ys.length = 0 then some 1
                  else if xs.length = 0 ∨ ys.length = 0 then some 0 else _) = some _
                rw [if_neg h00, if_pos h0]
                show _ = some (if xs.length = 0 ∧ ys.length = 0 then 1
                  else if xs.length = 0 ∨ ys.length = 0 then 0 else _)
                rw [if_neg h00, if_pos h0]
              · have hzip : calcSimZipO xs ys = some (calcSimZip xs ys) := by
                  apply calcSimZipO_eq_aux n ih
                  simp [vsize] at h
                  omega
                have hmax : ((max xs.length ys.length : Nat) : ℚ) ≠ 0 := by
                  have hx : xs.length ≠ 0 := fun hc => h0 (Or.inl hc)
                  have hle : xs.length ≤ max xs.length ys.length := Nat.le_max_left _ _
                  simp only [ne_eq, Nat.cast_eq_zero]
                  omega
                show (if xs.length = 0 ∧ ys.length = 0 then some 1
                  else if xs.length = 0 ∨ ys.length = 0 then some 0 else _) = some _
                rw [if_neg h00, if_neg h0]
                show (match calcSimZipO xs ys with
                  | none => none
                  | some total =>
                      match divO total ((max xs.length ys.length : Nat) : ℚ),
                        divO ((min xs.length ys.length : Nat) : ℚ)
                          ((max xs.length ys.length : Nat) : ℚ) with
                      | some q1, some q2 => some (q1 * q2)
                      | _, _ => none) = some _
                rw [hzip]
                show (match divO (calcSimZip xs ys) ((max xs.length ys.length : Nat) : ℚ),
                    divO ((min xs.length ys.length : Nat) : ℚ)
                      ((max xs.length ys.length : Nat) : ℚ) with
                  | some q1, some q2 => some (q1 * q2)
                  | _, _ => none) = some _
                rw [divO, divO, if_neg hmax, if_neg hmax]
                show some _ = some (if xs.length = 0 ∧ ys.length = 0 then 1
                  else if xs.length = 0 ∨ ys.length = 0 then 0
                  else (calcSimZip xs ys / ((max xs.length ys.length : Nat) : ℚ)) *
                    (((min xs.length ys.length : Nat) : ℚ) /
                      ((max xs.length ys.length : Nat) : ℚ)))
                rw [if_neg h00, if_neg h0]
          · rename_i fa fb
            by_cases h00 : (keysOf fa).length = 0 ∧ (keysOf fb).length = 0
            · show (if (keysOf fa).length = 0 ∧ (keysOf fb).length = 0 then some 1
                else _) = some _
              rw [if_pos h00]
              show _ = some (if (keysOf fa).length = 0 ∧ (keysOf fb).length = 0
                then 1 else _)
              rw [if_pos h00]
            · by_cases h0 : (keysOf fa).length = 0 ∨ (keysOf fb).length = 0
              · show (if (keysOf fa).length = 0 ∧ (keysOf fb).length = 0 then some 1
                  else if (keysOf fa).length = 0 ∨ (keysOf fb).length = 0 then some 0
                  else _) = some _
                rw [if_neg h00, if_pos h0]
                show _ = some (if (keysOf fa).length = 0 ∧ (keysOf fb).length = 0 then 1
                  else if (keysOf fa).length = 0 ∨ (keysOf fb).length = 0 then 0 else _)
                rw [if_neg h00, if_pos h0]
              · have hobj : calcSimObjO (dedupFirst (keysOf fa ++ keysOf fb)) fa fb =
                    some (calcSimObj (dedupFirst (keysOf fa ++ keysOf fb)) fa fb) := by
                  apply calcSimObjO_eq_aux n ih
                  simp [vsize] at h
                  omega
                have hall : ((dedupFirst (keysOf fa ++ keysOf fb)).length : ℚ) ≠ 0 := by
                  have hx : (keysOf fa).length ≠ 0 := fun hc => h0 (Or.inl hc)
                  cases hfa : keysOf fa with
                  | nil => exact absurd (by rw [hfa]; rfl) hx
                  | cons k kl =>
                      rw [List.cons_append, dedupFirst]
                      simp
                      positivity
                show (if (keysOf fa).length = 0 ∧ (keysOf fb).length = 0 then some 1
                  else if (keysOf fa).length = 0 ∨ (keysOf fb).length = 0 then some 0
                  else _) = some _
                rw [if_neg h00, if_neg h0]
                show (match calcSimObjO (dedupFirst (keysOf fa ++ keysOf fb)) fa fb with
                  | none => none
                  | some total =>
                      match divO total ((dedupFirst (keysOf fa ++ keysOf fb)).length : ℚ),
                        divO ((((keysOf fa).filter
                            (fun k => (keysOf fb).contains k)).length : Nat) : ℚ)
                          ((dedupFirst (keysOf fa ++ keysOf fb)).length : ℚ) with
                      | some q1, some q2 => some (q1 * q2)
                      | _, _ => none) = some _
                rw [hobj]
                show (match divO (calcSimObj (dedupFirst (keysOf fa ++ keysOf fb)) fa fb)
                    ((dedupFirst (keysOf fa ++ keysOf fb)).length : ℚ),
                    divO ((((keysOf fa).filter
                        (fun k => (keysOf fb).contains k)).length : Nat) : ℚ)
                      ((dedupFirst (keysOf fa ++ keysOf fb)).length : ℚ) with
                  | some q1, some q2 => some (q1 * q2)
                  | _, _ => none) = some _
                rw [divO, divO, if_neg hall, if_neg hall]
                show some _ = some (if (keysOf fa).length = 0 ∧ (keysOf fb).length = 0
                  then 1
                  else if (keysOf fa).length = 0 ∨ (keysOf fb).length = 0 then 0
                  else (calcSimObj (dedupFirst (keysOf fa ++ keysOf fb)) fa fb /
                      ((dedupFirst (keysOf fa ++ keysOf fb)).length : ℚ)) *
                    (((((keysOf fa).filter
                        (fun k => (keysOf fb).contains k)).length : Nat) : ℚ) /
                      ((dedupFirst (keysOf fa ++ keysOf fb)).length : ℚ)))
                rw [if_neg h00, if_neg h0]

theorem calcSimO_eq (a b : Value) : calcSimO a b = some (calcSim a b) :=
  calcSimO_eq_n (vsize a + vsize b) a b (le_refl _)

/-- The scanning loop of `findBestMatch` over `calcSimO`, propagating
`none`. -/
def bestGoO (item : Value) : List Value → Int × ℚ → Nat → Option (Int × ℚ)
  | [], best, _ => some best
  | v :: vs, best, i =>
      match calcSimO item v with
      | none => none
      | some score =>
          if score > best.2 then bestGoO item vs ((i : Int), score) (i + 1)
          else bestGoO item vs best (i + 1)

/-- `findBestMatch` over `calcSimO`, propagating `none`. -/
def findBestMatchO (item : Value) (arr : List Value) : Option (Int × ℚ) :=
  match arr with
  | [] => some (-1, 0)
  | a0 :: rest =>
      match calcSimO item a0 with
      | none => none
      | some s => bestGoO item rest (0, s) 1

theorem bestGoO_eq (item : Value) :
    ∀ (vs : List Value) (best : Int × ℚ) (i : Nat),
      bestGoO item vs best i = some (bestGo item vs best i) := by
  intro vs
  induction vs with
  | nil =>
      intro best i
      rw [bestGoO, bestGo]
  | cons v tvs ih =>
      intro best i
      rw [bestGoO, bestGo, calcSimO_eq]
      show (if calcSim item v > best.2 then bestGoO item tvs ((i : Int), calcSim item v) (i + 1)
        else bestGoO item tvs best (i + 1)) = some _
      by_cases hgt : calcSim item v > best.2
      · rw [if_pos hgt, ih]
        show some _ = some (if calcSim item v > best.2 then _ else _)
        rw [if_pos hgt]
      · rw [if_neg hgt, ih]
        show some _ = some (if calcSim item v > best.2 then _ else _)
        rw [if_neg hgt]

theorem findBestMatchO_eq (item : Value) (arr : List Value) :
    findBestMatchO item arr = some (findBestMatch item arr) := by
  cases arr with
  | nil => rfl
  | cons a0 rest =>
      rw [findBestMatchO, findBestMatch, calcSimO_eq]
      exact bestGoO_eq item rest (0, calcSim item a0) 1

mutual
/-- `diffValues` with the error branch of every similarity computation it
can reach made explicit via `Option`, `none` propagating outward. -/
def diffValuesO (o n : Value) (opts : DiffOptions) : Option DiffRes :=
  if isEqual o n then some (if opts.full then .val o else .undef)
  else if isNullish o || isNullish n then some (.change o n)
  else if typeOf o ≠ typeOf n then some (.change o n)
  else match o, n with
    | .vStr _, .vStr _ => some (.change o n)
    | .vArr xs, .vArr ys =>
        match diffArraysO xs ys opts with
        | none => none
        | some l => some (.arr l)
    | .vObj fa, .vObj fb =>
        match diffObjectsO fa fb opts with
        | none => none
        | some l => some (.map l)
    | _, _ => some (.change o n)
termination_by (vsize o + vsize n, 0, 0)
decreasing_by
  · apply natlex3
    simp [vsize]
    omega
  · apply natlex3
    simp [vsize]
    omega

/-- `diffArrays` over the `Option`-guarded pipeline. -/
def diffArraysO (oldA newA : List Value) (opts : DiffOptions) :
    Option (List DiffRes) :=
  if oldA.length = 0 ∧ newA.length = 0 then some []
  else if isEqual (.vArr oldA) (.vArr newA) then some (oldA.map .val)
  else
    match firstPassO oldA newA opts [] with
    | none => none
    | some fp => some (fp.1 ++ secondPassFrom newA fp.2 0)
termination_by (lsize oldA + lsize newA, 1, 0)
decreasing_by
  apply natlex3
  omega

/-- The first pass of `diffArrays` over the `Option`-guarded pipeline. -/
def firstPassO : List Value → List Value → DiffOptions → List Int →
    Option (List DiffRes × List Int)
  | [], _, _, matched => some ([], matched)
  | x :: xs, newA, opts, matched =>
      match hbm : findBestMatchO x newA with
      | none => none
      | some bm =>
          if 0 ≤ bm.1 ∧ bm.2 > 7/10 ∧ ¬ matched.contains bm.1 then
            match diffValuesO x (getIdx newA bm.1.toNat) opts,
              firstPassO xs newA opts (bm.1 :: matched) with
            | some d, some rest => some (d :: rest.1, rest.2)
            | _, _ => none
          else
            match firstPassO xs newA opts matched with
            | none => none
            | some rest => some (DiffRes.change x .vUndef :: rest.1, rest.2)
termination_by olds newA opts matched => (lsize olds + lsize newA, 0, olds.length)
decreasing_by
  · have hne : newA ≠ [] := by
      intro hnil
      subst hnil
      have hbm0 : findBestMatchO x [] = some (-1, 0) := rfl
      rw [hbm0] at hbm
      have hbm1 : bm = (-1, 0) := by
        have := Option.some.inj hbm
        exact this.symm
      subst hbm1
      have hguard := ‹0 ≤ ((-1 : Int), (0 : ℚ)).1 ∧ ((-1 : Int), (0 : ℚ)).2 > 7/10 ∧
        ¬ matched.contains ((-1 : Int), (0 : ℚ)).1›
      simp at hguard
    have h1 := vsize_getIdx_le_of_ne_nil hne bm.1.toNat
    have h2 := vsize_pos x
    rcases Nat.lt_or_ge (vsize x + vsize (getIdx newA bm.1.toNat))
        (vsize x + lsize xs + lsize newA) with hlt | hge
    · exact natlex3 (Or.inl (by simpa [lsize] using hlt))
    · have heq : vsize x + vsize (getIdx newA bm.1.toNat) =
          vsize x + lsize xs + lsize newA := by omega
      apply natlex3
      right
      constructor
      · simpa [lsize] using heq
      · right
        exact ⟨rfl, by simp⟩
  · apply natlex3
    have := vsize_pos x
    simp [lsize]
    omega
  · apply natlex3
    have := vsize_pos x
    simp [lsize]
    omega

/-- `diffObjects` over the `Option`-guarded pipeline. -/
def diffObjectsO (fa fb : List (String × Value)) (opts : DiffOptions) :
    Option (List (String × DiffRes)) :=
  objLoopO (dedupFirst (keysOf fa ++ keysOf fb)) fa fb opts
termination_by (fsize fa + fsize fb, 1, 0)
decreasing_by
  apply natlex3
  simp

/-- The key loop of `diffObjects` over the `Option`-guarded pipeline. -/
def objLoopO : List String → List (String × Value) → List (String × Value) →
    DiffOptions → Option (List (String × DiffRes))
  | [], _, _, _ => some []
  | k :: ks, fa, fb, opts =>
      if hasKey fa k && hasKey fb k then
        if opts.keysOnly then
          match objLoopO ks fa fb opts with
          | none => none
          | some rest =>
              some ((if opts.full then [(k, DiffRes.val .vNull)] else []) ++ rest)
        else
          if (!isEqual (lookupD fa k) (lookupD fb k)) || opts.full
              || opts.outputKeys.contains k then
            match diffValuesO (lookupD fa k) (lookupD fb k) opts,
              objLoopO ks fa fb opts with
            | some d, some rest => some ((k, d) :: rest)
            | _, _ => none
          else objLoopO ks fa fb opts
      else if hasKey fa k then
        match objLoopO ks fa fb opts with
        | none => none
        | some rest => some ((k, DiffRes.change (lookupD fa k) .vUndef) :: rest)
      else
        match objLoopO ks fa fb opts with
        | none => none
        | some rest => some ((k, DiffRes.change .vUndef (lookupD fb k)) :: rest)
termination_by ks fa fb opts => (fsize fa + fsize fb, 0, ks.length)
decreasing_by
  · exact natlex3 (Or.inr ⟨rfl, Or.inr ⟨rfl, by simp⟩⟩)
  · have hg : (hasKey fa k && hasKey fb k) = true :=
      ‹(hasKey fa k && hasKey fb k) = true›
    have h1 := vsize_lookupD_le_of_hasKey fa k (Bool.and_eq_true_iff.mp hg).1
    have h2 := vsize_lookupD_le_of_hasKey fb k (Bool.and_eq_true_iff.mp hg).2
    rcases Nat.lt_or_ge (vsize (lookupD fa k) + vsize (lookupD fb k))
        (fsize fa + fsize fb) with hlt | hge
    · exact natlex3 (Or.inl hlt)
    · have heq : vsize (lookupD fa k) + vsize (lookupD fb k) =
          fsize fa + fsize fb := by omega
      exact natlex3 (Or.inr ⟨heq, Or.inr ⟨rfl, by simp⟩⟩)
  · exact natlex3 (Or.inr ⟨rfl, Or.inr ⟨rfl, by simp⟩⟩)
  · exact natlex3 (Or.inr ⟨rfl, Or.inr ⟨rfl, by simp⟩⟩)
  · exact natlex3 (Or.inr ⟨rfl, Or.inr ⟨rfl, by simp⟩⟩)
  · exact natlex3 (Or.inr ⟨rfl, Or.inr ⟨rfl, by simp⟩⟩)
end

theorem firstPassO_eq_aux (opts : DiffOptions) (M : Nat)
    (ihm : ∀ a b, vsize a + vsize b ≤ M →
      diffValuesO a b opts = some (diffValues a b opts)) :
    ∀ (olds newA : List Value) (matched : List Int),
      lsize olds + lsize newA ≤ M →
      firstPassO olds newA opts matched = some (firstPass olds newA opts matched) := by
  intro olds
  induction olds with
  | nil =>
      intro newA matched _
      rw [firstPassO, firstPass]
  | cons x xs ih =>
      intro newA matched hsz
      rw [firstPassO]
      split
      · rename_i heq
        rw [findBestMatchO_eq] at heq
        simp at heq
      · rename_i bm heq
        rw [findBestMatchO_eq] at heq
        have hbmv : bm = findBestMatch x newA := (Option.some.inj heq).symm
        subst hbmv
        rw [firstPass]
        by_cases hg : 0 ≤ (findBestMatch x newA).1 ∧ (findBestMatch x newA).2 > 7/10 ∧
            ¬ matched.contains (findBestMatch x newA).1
        · have hne : newA ≠ [] := by
            intro hnil
            subst hnil
            have hfb : findBestMatch x [] = (-1, 0) := rfl
            rw [hfb] at hg
            simp at hg
          rw [if_pos hg]
          have hd : diffValuesO x (getIdx newA (findBestMatch x newA).1.toNat) opts =
              some (diffValues x (getIdx newA (findBestMatch x newA).1.toNat) opts) := by
            apply ihm
            have h1 := vsize_getIdx_le_of_ne_nil hne (findBestMatch x newA).1.toNat
            simp [lsize] at hsz
            omega
          have hrest : firstPassO xs newA opts ((findBestMatch x newA).1 :: matched) =
              some (firstPass xs newA opts ((findBestMatch x newA).1 :: matched)) := by
            apply ih
            have := vsize_pos x
            simp [lsize] at hsz ⊢
            omega
          rw [hd, hrest]
          show some _ = some (if _ then _ else _)
          rw [if_pos hg]
        · rw [if_neg hg]
          have hrest : firstPassO xs newA opts matched =
              some (firstPass xs newA opts matched) := by
            apply ih
            have := vsize_pos x
            simp [lsize] at hsz ⊢
            omega
          rw [hrest]
          show some _ = some (if _ then _ else _)
          rw [if_neg hg]

theorem objLoopO_eq_aux (opts : DiffOptions) (M : Nat)
    (ihm : ∀ a b, vsize a + vsize b ≤ M →
      diffValuesO a b opts = some (diffValues a b opts)) :
    ∀ (ks : List String) (fa fb : List (String × Value)),
      fsize fa + fsize fb ≤ M →
      objLoopO ks fa fb opts = some (objLoop ks fa fb opts) := by
  intro ks
  induction ks with
  | nil =>
      intro fa fb _
      rw [objLoopO, objLoop]
  | cons k tks ih =>
      intro fa fb hsz
      have hrest := ih fa fb hsz
      rw [objLoopO, objLoop]
      by_cases hboth : (hasKey fa k && hasKey fb k) = true
      · rw [if_pos hboth, if_pos hboth]
        by_cases hko : opts.keysOnly = true
        · rw [if_pos hko, if_pos hko, hrest]
        · rw [if_neg hko, if_neg hko]
          by_cases hdiff : ((!isEqual (lookupD fa k) (lookupD fb k)) || opts.full
              || opts.outputKeys.contains k) = true
          · rw [if_pos hdiff, if_pos hdiff]
            have hd : diffValuesO (lookupD fa k) (lookupD fb k) opts =
                some (diffValues (lookupD fa k) (lookupD fb k) opts) := by
              apply ihm
              have h1 := vsize_lookupD_le_of_hasKey fa k (Bool.and_eq_true_iff.mp hboth).1
              have h2 := vsize_lookupD_le_of_hasKey fb k (Bool.and_eq_true_iff.mp hboth).2
              omega
            rw [hd, hrest]
          · rw [if_neg hdiff, if_neg hdiff, hrest]
      · rw [if_neg hboth, if_neg hboth]
        by_cases ha : hasKey fa k = true
        · rw [if_pos ha, if_pos ha, hrest]
        · rw [if_neg ha, if_neg ha, hrest]

theorem diffValuesO_eq_n :
    ∀ n (o m : Value) (opts : DiffOptions), vsize o + vsize m ≤ n →
      diffValuesO o m opts = some (diffValues o m opts) := by
  intro n
  induction n with
  | zero =>
      intro o m opts h
      have := vsize_pos o
      have := vsize_pos m
      omega
  | succ n ih =>
      intro o m opts h
      cases heq : isEqual o m with
      | true =>
          rw [diffValuesO.eq_def, diffValues.eq_def]
          simp [heq]
      | false =>
      cases hnl : (isNullish o || isNullish m) with
      | true =>
          rw [diffValuesO.eq_def, diffValues.eq_def]
          simp [heq, hnl]
      | false =>
      by_cases hty : typeOf o = typeOf m
      case neg =>
          rw [diffValuesO.eq_def, diffValues.eq_def]
          simp [heq, hnl, hty]
      case pos =>
          rw [diffValuesO.eq_def, diffValues.eq_def]
          simp only [heq, hnl, hty, ne_eq, not_true_eq_false, Bool.false_eq_true,
            if_false, ite_false, not_false_eq_true, ite_true, Bool.or_self]
          cases o <;> cases m <;>
              first
                | rfl
                | skip
          · rename_i xs ys
            have harr : diffArraysO xs ys opts = some (diffArrays xs ys opts) := by
              rw [diffArraysO, diffArrays]
              by_cases h00 : xs.length = 0 ∧ ys.length = 0
              · rw [if_pos h00, if_pos h00]
              · rw [if_neg h00, if_neg h00]
                by_cases hEq : isEqual (.vArr xs) (.vArr ys) = true
                · rw [if_pos hEq, if_pos hEq]
                · rw [if_neg hEq, if_neg hEq]
                  have hfp : firstPassO xs ys opts [] =
                      some (firstPass xs ys opts []) := by
                    apply firstPassO_eq_aux opts n
                    · intro a b hab
                      exact ih a b opts hab
                    · simp [vsize] at h
                      omega
                  rw [hfp]
            show (match diffArraysO xs ys opts with
              | none => none
              | some l => some (DiffRes.arr l)) = some _
            rw [harr]
          · rename_i fa fb
            have hobj : diffObjectsO fa fb opts = some (diffObjects fa fb opts) := by
              rw [diffObjectsO, diffObjects]
              have hol : objLoopO (dedupFirst (keysOf fa ++ keysOf fb)) fa fb opts =
                  some (objLoop (dedupFirst (keysOf fa ++ keysOf fb)) fa fb opts) := by
                apply objLoopO_eq_aux opts n
                · intro a b hab
                  exact ih a b opts hab
                · simp [vsize] at h
                  omega
              rw [hol]
            show (match diffObjectsO fa fb opts with
              | none => none
              | some l => some (DiffRes.map l)) = some _
            rw [hobj]

/-- C9: totality — with every division of `calculateSimilarity` routed
through the error-explicit `divO` (`none` exactly when the divisor is
zero) and `none` propagated through `findBestMatch`, `diffValues`,
`diffArrays`, `firstPass`, `diffObjects` and `objLoop`, the guarded
pipeline never returns `none` on any pair of values and any options: it
always agrees with the total embedding, so every division guard holds and
the error branch is unreachable. -/
theorem C9_totality :
    (∀ a b : Value, calcSimO a b = some (calcSim a b)) ∧
    (∀ (item : Value) (arr : List Value),
      findBestMatchO item arr = some (findBestMatch item arr)) ∧
    (∀ (o n : Value) (opts : DiffOptions),
      diffValuesO o n opts = some (diffValues o n opts)) :=
  ⟨calcSimO_eq, findBestMatchO_eq,
   fun o n opts => diffValuesO_eq_n (vsize o + vsize n) o n opts (le_refl _)⟩
